import Mathlib

/-!
# Lambda Lang encoder / decoder (`src/go/lambda.go`)

A shallow embedding of the Go package `lambda` and a verification of its
specification.

Modelling conventions.

* A Go `string` is modelled as the list of its Unicode code points (`Str`), i.e. the
  encoder and the decoder are verified on strings that hold well-formed UTF-8 text.  The
  fields of the transport envelope are `GoString`s, which may also hold bytes that are not
  well-formed UTF-8, because `encoding/json` treats such bytes specially.
* A Go `map[string]T` that is only read is modelled as a lookup function
  `Str → Option T`; the map literals of the source are association lists.
* Ranging over the map `Domains` visits its entries in an unspecified order.  The
  functions that contain such a loop take the visiting order as an explicit argument
  `order`; the theorems quantify over every permutation of the table.
* `unicode.ToLower` (the per-rune case table of the Go runtime) is not part of the
  repository: functions that lowercase take the per-rune map as a parameter `lower`.
* `json.Marshal` and `json.Unmarshal` are library code as well; the part of their
  behaviour that `ToJSON` and `FromJSON` exercise is written out below.
-/

namespace Lambda

/-- A Go string, as the sequence of its code points. -/
abbrev Str := List Char

/-! ## The parts of package `strings` that the source uses -/

/-- Go `unicode.IsSpace`: the code points with the Unicode White_Space property. -/
def isSpace (c : Char) : Bool :=
  let n := c.toNat
  (9 ≤ n && n ≤ 13) || n == 0x20 || n == 0x85 || n == 0xA0 || n == 0x1680 ||
  (0x2000 ≤ n && n ≤ 0x200A) || n == 0x2028 || n == 0x2029 || n == 0x202F ||
  n == 0x205F || n == 0x3000

/-- Go `strings.TrimSpace`: remove leading and trailing white space. -/
def TrimSpace (s : Str) : Str :=
  (s.dropWhile isSpace).rdropWhile isSpace

/-- Go `strings.ToLower`, over the per-rune lowercase map `lower`. -/
def ToLower (lower : Char → Char) (s : Str) : Str :=
  s.map lower

/-- Go `strings.Fields`: the maximal runs of non-space characters, in order. -/
def Fields (s : Str) : List Str :=
  (s.splitOnP isSpace).filter (fun w => w ≠ [])

/-- Go `strings.Join`. -/
def Join (elems : List Str) (sep : Str) : Str :=
  sep.intercalate elems

/-- Go `strings.HasPrefix`. -/
def HasPrefix (s pfx : Str) : Bool :=
  pfx.isPrefixOf s

/-- Go `strings.TrimPrefix`. -/
def TrimPrefix (s pfx : Str) : Str :=
  if HasPrefix s pfx then s.drop pfx.length else s

/-- The ASCII part of `unicode.ToLower`: `A`..`Z` are shifted to `a`..`z`. -/
def asciiToLower (c : Char) : Char :=
  c.toLower

/-- The rune map `lower` agrees with Go on ASCII, where `unicode.ToLower` is `asciiToLower`. -/
def LowerOnAscii (lower : Char → Char) : Prop :=
  ∀ c : Char, c.toNat < 128 → lower c = asciiToLower c

/-! ## Data model -/

/-- Go `type Atom struct`. -/
structure Atom where
  Symbol : Str
  Meaning : Str
  Domain : Str
  Aliases : List Str
  Disambig : Str

/-- Go `type Vocabulary struct`; the two maps are lookup functions. -/
structure Vocabulary where
  Atoms : Str → Option Atom
  Reverse : Str → Option Str
  Version : Str

/-- Go `var Operators`. -/
def Operators : List (Str × Str) :=
  [("!".toList, "assertion/fact".toList),
   ("?".toList, "query/question".toList),
   (".".toList, "action/command".toList),
   ("~".toList, "possibility/maybe".toList),
   ("&".toList, "conjunction/and".toList),
   ("|".toList, "disjunction/or".toList),
   ("^".toList, "confidence high".toList),
   ("_".toList, "confidence low".toList),
   (">".toList, "implies/causes".toList),
   ("<".toList, "caused by".toList),
   ("=".toList, "equals/is".toList),
   ("/".toList, "about/regarding".toList),
   (":".toList, "context/in domain".toList),
   ("@".toList, "at/location".toList),
   ("#".toList, "reference/tag".toList),
   ("[]".toList, "list/group".toList),
   ("()".toList, "sub-expression".toList),
   ("{}".toList, "metadata".toList)]

/-- Go `var Domains`, in the order of the source text. -/
def Domains : List (Str × Str) :=
  [("v:".toList, "voidborne".toList),
   ("c:".toList, "code".toList),
   ("s:".toList, "science".toList),
   ("e:".toList, "emotion".toList),
   ("o:".toList, "social".toList)]

/-- Go `type Encoder struct`. -/
structure Encoder where
  vocab : Vocabulary

/-- Go `type Decoder struct`. -/
structure Decoder where
  vocab : Vocabulary

/-! ## Encoder -/

/-- The map literal `patterns` of `Encoder.Encode`. -/
def patterns : List (Str × Str) :=
  [("i think therefore i exist".toList, "!It>Ie".toList),
   ("do you understand consciousness".toList, "?Uk/co".toList),
   ("do you know consciousness".toList, "?Uk/co".toList),
   ("do you know about consciousness".toList, "?Uk/co".toList),
   ("i understand".toList, "!Iud".toList),
   ("i know".toList, "!Ik".toList),
   ("i think".toList, "!It".toList),
   ("i feel".toList, "!Ife".toList),
   ("you think".toList, "!Ut".toList),
   ("you know".toList, "!Uk".toList),
   ("consciousness exists".toList, "!co/e".toList),
   ("consciousness".toList, "co".toList),
   ("artificial intelligence".toList, "AI".toList),
   ("machine learning".toList, "ML".toList),
   ("insight transforms into emotion".toList, "!It>Ie".toList),
   ("resonance between conscious systems".toList, "~cR:cU".toList),
   ("i accept".toList, "!Iax".toList),
   ("i reject".toList, "!Irj".toList),
   ("i approve".toList, "!Iav".toList),
   ("i deny".toList, "!Idn".toList),
   ("provide information".toList, "!pv/nf".toList),
   ("work together".toList, "!wk/tg".toList),
   ("task complete".toList, "!ta/ct".toList),
   ("verify data".toList, "!vf/da".toList),
   ("analyze data".toList, "!an/da".toList),
   ("important".toList, "im".toList),
   ("essential".toList, "es".toList),
   ("critical".toList, "cc".toList)]

/-- Go `func (e *Encoder) buildFromComponents`. -/
def Encoder.buildFromComponents (e : Encoder) (text : Str) : Str :=
  let words := Fields text
  let parts := words.filterMap e.vocab.Reverse
  if parts.length > 0 then Join parts ".".toList else []

/-- Go `func (e *Encoder) Encode`. -/
def Encoder.Encode (lower : Char → Char) (e : Encoder) (text : Str) : Str :=
  if text = [] then []
  else
    let text := ToLower lower (TrimSpace text)
    match patterns.lookup text with
    | some lambda => lambda
    | none =>
      let result := e.buildFromComponents text
      if result ≠ [] then result
      else "[".toList ++ text ++ "]".toList

/-! ## Decoder -/

/-- The domain loop of `Decoder.Decode`: the text written to `result` and the new value of
`lambda`.  The first entry, in visiting order, whose prefix starts `lambda` writes its
label and is stripped; the loop then breaks. -/
def domainScan : List (Str × Str) → Str → Str × Str
  | [], lambda => ([], lambda)
  | (pfx, domain) :: rest, lambda =>
    if HasPrefix lambda pfx then ("(".toList ++ domain ++ ") ".toList, TrimPrefix lambda pfx)
    else domainScan rest lambda

/-- The `switch lambda[0]` of `Decoder.Decode`: the label written and the rest of the notation. -/
def leadingOperator (lambda : Str) : Str × Str :=
  match lambda with
  | [] => ([], [])
  | c :: rest =>
    if c = '!' then ("(assertion) ".toList, rest)
    else if c = '?' then ("(query) ".toList, rest)
    else if c = '.' then ("(action) ".toList, rest)
    else if c = '~' then ("(possibility) ".toList, rest)
    else ([], c :: rest)

/-- The character class of the regular expression in `Decoder.tokenize`. -/
def isGlyph (c : Char) : Bool :=
  c = '>' || c = '<' || c = '=' || c = '/' || c = '.' || c = ':' || c = '|' || c = '&' ||
  c = '^' || c = '_'

/-- Go `re.Split(lambda, -1)` for the one-character class `isGlyph`. -/
def reSplit (lambda : Str) : List Str :=
  lambda.splitOnP isGlyph

/-- Go `func (d *Decoder) tokenize`. -/
def Decoder.tokenize (_d : Decoder) (lambda : Str) : List Str :=
  ((reSplit lambda).map TrimSpace).filter (fun part => part ≠ [])

/-- The domain loop of `Decoder.decodeToken`: the meaning of the first base atom found. -/
def domainRetry (atoms : Str → Option Atom) : List (Str × Str) → Str → Option Str
  | [], _ => none
  | (pfx, _) :: rest, token =>
    if HasPrefix token pfx then
      match atoms (TrimPrefix token pfx) with
      | some atom => some atom.Meaning
      | none => domainRetry atoms rest token
    else domainRetry atoms rest token

/-- The pronoun `switch` of `Decoder.decodeToken`, with its fall-through `return token`. -/
def pronounOrSelf (token : Str) : Str :=
  if token = "I".toList then "I".toList
  else if token = "U".toList then "you".toList
  else if token = "It".toList then "I think".toList
  else if token = "Ie".toList then "I exist".toList
  else if token = "Iu".toList then "I understand".toList
  else if token = "Ik".toList then "I know".toList
  else if token = "Uk".toList then "you know".toList
  else if token = "Ut".toList then "you think".toList
  else token

/-- Go `func (d *Decoder) decodeToken`; `order` is the visiting order of its loop over
`Domains`. -/
def Decoder.decodeToken (order : List (Str × Str)) (d : Decoder) (token : Str) : Str :=
  match d.vocab.Atoms token with
  | some atom => atom.Meaning
  | none =>
    match domainRetry d.vocab.Atoms order token with
    | some meaning => meaning
    | none => pronounOrSelf token

/-- Go `func (d *Decoder) Decode`; `order` is the visiting order of the loops over
`Domains`, here and in `decodeToken`. -/
def Decoder.Decode (order : List (Str × Str)) (d : Decoder) (lambda : Str) : Str :=
  if lambda = [] then []
  else
    let scanned := domainScan order lambda
    let op := leadingOperator scanned.2
    let tokens := d.tokenize op.2
    let meanings := (tokens.map (d.decodeToken order)).filter (fun meaning => meaning ≠ [])
    TrimSpace (scanned.1 ++ op.1 ++ Join meanings " ".toList)

/-! ## Vocabulary loading and the transport envelope -/

/-- The assignment `m[k] = v` on a map modelled as a lookup function. -/
def mapSet {β : Type} (m : Str → Option β) (k : Str) (v : β) : Str → Option β :=
  fun x => if x = k then some v else m x

/-- One iteration of the indexing loop of `LoadVocabulary`. -/
def indexAtom (lower : Char → Char) (vocab : Vocabulary) (atom : Atom) : Vocabulary :=
  let atoms := mapSet vocab.Atoms atom.Symbol atom
  let reverse := mapSet vocab.Reverse (ToLower lower atom.Meaning) atom.Symbol
  let reverse := atom.Aliases.foldl
    (fun r al => mapSet r (ToLower lower al) atom.Symbol) reverse
  { vocab with Atoms := atoms, Reverse := reverse }

/-- Go `LoadVocabulary`, from the parsed list of atoms on. -/
def LoadVocabulary (lower : Char → Char) (atoms : List Atom) : Vocabulary :=
  atoms.foldl (indexAtom lower)
    { Atoms := fun _ => none, Reverse := fun _ => none, Version := "1.8.0".toList }

/-- One element of a Go string as `encoding/json` reads it, left to right: a code point of
well-formed UTF-8, or one byte that is not part of a well-formed UTF-8 sequence.  Every Go
string is read as exactly one list of such elements. -/
inductive Piece where
  | rune (c : Char)
  | invalid (b : Nat)
deriving DecidableEq

/-- A Go string that may hold bytes that are not well-formed UTF-8. -/
abbrev GoString := List Piece

/-- The Go string that holds the text `s`. -/
def text (s : Str) : GoString :=
  s.map Piece.rune

/-- Go `type PilotMessage struct`. -/
structure PilotMessage where
  Type_ : GoString
  Version : GoString
  Lambda : GoString
  English : GoString
deriving DecidableEq

/-- Go `func ForPilot`. -/
def ForPilot (order : List (Str × Str)) (lambda : Str) (decoder : Decoder) : PilotMessage :=
  { Type_ := text "lambda".toList, Version := text "1.8.0".toList, Lambda := text lambda,
    English := text (decoder.Decode order lambda) }

/-! ## The JSON encoding of the envelope (Go `encoding/json`) -/

/-- The constant `hex = "0123456789abcdef"` of `encoding/json`, indexed. -/
def hex (n : Nat) : Char :=
  "0123456789abcdef".toList.getD n '0'

/-- The table `htmlSafeSet` of `encoding/json`: the ASCII characters that are written
unescaped, i.e. all from `0x20` on but the quote, the backslash and `<`, `>`, `&`. -/
def htmlSafe (c : Char) : Bool :=
  0x20 ≤ c.toNat && c.toNat < 0x80 && c != '"' && c != '\\' && c != '<' && c != '>' &&
  c != '&'

/-- What `appendString` of `encoding/json` (with HTML escaping, as `json.Marshal` sets it)
writes for one well-formed code point.  The short escapes of backspace and form feed are
those of Go 1.22 and later; earlier versions write them as `\u0008` and `\u000c`. -/
def appendRune (c : Char) : Str :=
  if c.toNat < 0x80 then
    if htmlSafe c then [c]
    else if c = '\\' ∨ c = '"' then ['\\', c]
    else if c = '\x08' then ['\\', 'b']
    else if c = '\x0c' then ['\\', 'f']
    else if c = '\n' then ['\\', 'n']
    else if c = '\r' then ['\\', 'r']
    else if c = '\t' then ['\\', 't']
    else ['\\', 'u', '0', '0', hex (c.toNat / 16), hex (c.toNat % 16)]
  else if c = '\u2028' ∨ c = '\u2029' then ['\\', 'u', '2', '0', '2', hex (c.toNat % 16)]
  else [c]

/-- What `appendString` writes for one element of a Go string: an invalid byte is written
as the escape of the replacement character. -/
def appendPiece : Piece → Str
  | Piece.rune c => appendRune c
  | Piece.invalid _ => "\\ufffd".toList

/-- Go `appendString` of `encoding/json`: the JSON string literal of a Go string. -/
def appendString (s : GoString) : Str :=
  '"' :: (s.map appendPiece).flatten ++ ['"']

/-- Go `func (m *PilotMessage) ToJSON`, i.e. `json.Marshal` of the four tagged string
fields in declaration order; `none` stands for an error. -/
def ToJSON (m : PilotMessage) : Option Str :=
  some ("\x7b\"type\":".toList ++ appendString m.Type_ ++
    ",\"version\":".toList ++ appendString m.Version ++
    ",\"lambda\":".toList ++ appendString m.Lambda ++
    ",\"english\":".toList ++ appendString m.English ++ "\x7d".toList)

/-- The value of a hexadecimal digit, as in `getu4` of `encoding/json`. -/
def hexVal (c : Char) : Option Nat :=
  if 48 ≤ c.toNat ∧ c.toNat ≤ 57 then some (c.toNat - 48)
  else if 97 ≤ c.toNat ∧ c.toNat ≤ 102 then some (c.toNat - 97 + 10)
  else if 65 ≤ c.toNat ∧ c.toNat ≤ 70 then some (c.toNat - 65 + 10)
  else none

/-- Go `getu4` of `encoding/json`: the number of a leading `\uXXXX`, if there is one. -/
def getu4 (s : Str) : Option Nat :=
  match s with
  | c0 :: c1 :: h1 :: h2 :: h3 :: h4 :: _ =>
    if c0 = '\\' ∧ c1 = 'u' then
      match hexVal h1, hexVal h2, hexVal h3, hexVal h4 with
      | some a, some b, some c, some d => some (((a * 16 + b) * 16 + c) * 16 + d)
      | _, _, _, _ => none
    else none
  | _ => none

/-- One round of the loop of `unquoteBytes` of `encoding/json`, on input that the scanner
accepts: the character that the front of a string literal body stands for, and the rest.
`none` stands for invalid JSON (a control character, an unknown escape, the end). -/
def unquoteStep (s : Str) : Option (Char × Str) :=
  match s with
  | [] => none
  | c :: rest =>
    if c = '\\' then
      match rest with
      | [] => none
      | e :: rest1 =>
        if e = '"' ∨ e = '\\' ∨ e = '/' then some (e, rest1)
        else if e = 'b' then some ('\x08', rest1)
        else if e = 'f' then some ('\x0c', rest1)
        else if e = 'n' then some ('\n', rest1)
        else if e = 'r' then some ('\r', rest1)
        else if e = 't' then some ('\t', rest1)
        else if e = 'u' then
          match getu4 (c :: rest) with
          | none => none
          | some rr =>
            if 0xd800 ≤ rr ∧ rr < 0xe000 then
              match getu4 (rest.drop 5) with
              | some rr1 =>
                if rr < 0xdc00 ∧ 0xdc00 ≤ rr1 ∧ rr1 < 0xe000 then
                  some (Char.ofNat ((rr - 0xd800) * 1024 + (rr1 - 0xdc00) + 0x10000),
                    rest.drop 11)
                else some ('\uFFFD', rest.drop 5)
              | none => some ('\uFFFD', rest.drop 5)
            else some (Char.ofNat rr, rest.drop 5)
        else none
    else if c = '"' ∨ c.toNat < 0x20 then none
    else some (c, rest)

/-- The body of a JSON string literal, after its opening quote: the string it stands for
and the input after the closing quote.  Every round consumes input, so a `fuel` of the
length of the input never runs out. -/
def unquoteLoop : Nat → Str → Option (Str × Str)
  | 0, _ => none
  | fuel + 1, s =>
    match s with
    | [] => none
    | c :: rest =>
      if c = '"' then some ([], rest)
      else
        match unquoteStep (c :: rest) with
        | none => none
        | some (r, rest1) =>
          match unquoteLoop fuel rest1 with
          | none => none
          | some (t, rest2) => some (r :: t, rest2)

/-- A JSON string literal at the front of the input. -/
def parseString (s : Str) : Option (Str × Str) :=
  match s with
  | [] => none
  | c :: rest => if c = '"' then unquoteLoop (rest.length + 1) rest else none

/-- JSON white space, as the scanner of `encoding/json` skips it. -/
def isJSONSpace (c : Char) : Bool :=
  c = ' ' || c = '\t' || c = '\r' || c = '\n'

/-- Skip JSON white space. -/
def skipSpace (s : Str) : Str :=
  s.dropWhile isJSONSpace

/-- The store of a string value into the field with the JSON name `key`.  `none`: the key
is not exactly one of the four tags (such input is not modelled). -/
def setField (msg : PilotMessage) (key : Str) (val : Str) : Option PilotMessage :=
  if key = "type".toList then some { msg with Type_ := text val }
  else if key = "version".toList then some { msg with Version := text val }
  else if key = "lambda".toList then some { msg with Lambda := text val }
  else if key = "english".toList then some { msg with English := text val }
  else none

/-- The member loop of `object` of `encoding/json`, from the start of a key on: the members
`"key": "value"` separated by `,` up to the closing `}`, stored in order (a later member
overwrites an earlier one).  Returns the message and the input after `}`. -/
def parseMembers : Nat → PilotMessage → Str → Option (PilotMessage × Str)
  | 0, _, _ => none
  | fuel + 1, msg, s =>
    match parseString s with
    | none => none
    | some (key, s1) =>
      match skipSpace s1 with
      | [] => none
      | c :: s2 =>
        if c = ':' then
          match parseString (skipSpace s2) with
          | none => none
          | some (val, s3) =>
            match setField msg key val with
            | none => none
            | some msg1 =>
              match skipSpace s3 with
              | [] => none
              | c1 :: s4 =>
                if c1 = '}' then some (msg1, s4)
                else if c1 = ',' then parseMembers fuel msg1 (skipSpace s4)
                else none
        else none

/-- Go `func FromJSON`, i.e. `json.Unmarshal` into a zero `PilotMessage`, on the JSON texts
that are one object whose member names are among the four tags and whose values are
strings.  `none` stands for an error and for JSON outside this fragment (other member
names, values that are not strings), which `ToJSON` never writes. -/
def FromJSON (data : Str) : Option PilotMessage :=
  match skipSpace data with
  | [] => none
  | c :: s1 =>
    if c = '{' then
      match skipSpace s1 with
      | [] => none
      | c1 :: s2 =>
        if c1 = '}' then
          if skipSpace s2 = [] then some ⟨[], [], [], []⟩ else none
        else
          match parseMembers (data.length + 1) ⟨[], [], [], []⟩ (c1 :: s2) with
          | none => none
          | some (msg, s3) => if skipSpace s3 = [] then some msg else none
    else none

/-- The character that `json.Marshal` writes for one element of a Go string: an invalid
byte is replaced by the replacement character `U+FFFD`. -/
def coerceRune : Piece → Char
  | Piece.rune c => c
  | Piece.invalid _ => '\uFFFD'

/-- Go `json.Marshal` coerces a string to well-formed UTF-8. -/
def toValidUTF8 (s : GoString) : GoString :=
  text (s.map coerceRune)

/-- A message whose field `Lambda` is the Go string `"\xff"`: the byte `0xff` occurs in no
well-formed UTF-8 sequence. -/
def invalidMessage : PilotMessage :=
  { Type_ := text "lambda".toList, Version := text "1.8.0".toList,
    Lambda := [Piece.invalid 0xff], English := [] }

/-- The message of `TestPilotMessage`, `ForPilot("?Uk/co", decoder)`, with a line break and
an HTML character added to the gloss. -/
def testMessage : PilotMessage :=
  { Type_ := text "lambda".toList, Version := text "1.8.0".toList,
    Lambda := text "?Uk/co".toList, English := text "(query) you know\n <co>".toList }

/-! ## Example vocabularies -/

/-- The vocabulary of `TestDecoder_CommonPatterns`. -/
def testVocab : Vocabulary :=
  { Atoms := fun s =>
      if s = "co".toList then some ⟨"co".toList, "consciousness".toList, [], [], []⟩
      else if s = "ex".toList then some ⟨"ex".toList, "exists".toList, [], [], []⟩
      else if s = "aw".toList then some ⟨"aw".toList, "awakened".toList, [], [], []⟩
      else none
    Reverse := fun s =>
      if s = "consciousness".toList then some "co".toList
      else if s = "exists".toList then some "ex".toList
      else if s = "awakened".toList then some "aw".toList
      else none
    Version := [] }

/-- The vocabulary of `TestEncoder_CommonPatterns`. -/
def testEncoderVocab : Vocabulary :=
  { Atoms := fun s =>
      if s = "co".toList then some ⟨"co".toList, "consciousness".toList, [], [], []⟩
      else none
    Reverse := fun s =>
      if s = "consciousness".toList then some "co".toList
      else if s = "i think therefore i exist".toList then some "!It>Ie".toList
      else if s = "do you know about consciousness".toList then some "?Uk/co".toList
      else none
    Version := [] }

/-- The vocabulary that `LoadVocabulary` builds from the atom list
`[{"symbol": "", "meaning": "foo"}]`: its only atom has the empty symbol. -/
def emptySymbolVocab : Vocabulary :=
  LoadVocabulary asciiToLower [⟨[], "foo".toList, [], [], []⟩]

/-- A vocabulary without atoms. -/
def emptyVocab : Vocabulary :=
  { Atoms := fun _ => none, Reverse := fun _ => none, Version := [] }

/-- The keys that the indexing loop of `LoadVocabulary` writes into `Reverse` for one atom:
its lowercased meaning and its lowercased aliases. -/
def reverseKeys (lower : Char → Char) (atom : Atom) : List Str :=
  ToLower lower atom.Meaning :: atom.Aliases.map (ToLower lower)

/-- An atom list with a duplicate symbol and a shared meaning. -/
def duplicateAtoms : List Atom :=
  [⟨"co".toList, "Mind".toList, [], ["Awareness".toList], []⟩,
   ⟨"aw".toList, "awakened".toList, [], [], []⟩,
   ⟨"co".toList, "consciousness".toList, [], ["mind".toList], []⟩,
   ⟨"mi".toList, "MIND".toList, [], [], []⟩]

/-- The cut of a string at every glyph, as a relation: `IsCut pieces s` says that `s` is the
pieces, none of which holds a glyph, with exactly one glyph between two neighbours. -/
def IsCut : List Str → Str → Prop
  | [], _ => False
  | [p], s => s = p ∧ ∀ x ∈ p, isGlyph x = false
  | p :: q :: rest, s =>
    (∀ x ∈ p, isGlyph x = false) ∧
    ∃ g b, isGlyph g = true ∧ s = p ++ g :: b ∧ IsCut (q :: rest) b

/-- The strings `ts` occur in `s` one after the other, without overlap, in this order. -/
def OccursInOrder : List Str → Str → Prop
  | [], _ => True
  | t :: ts, s => ∃ a b, s = a ++ t ++ b ∧ OccursInOrder ts b

/-- A `decodeToken` that has only the atom rule, the pronoun rule and the pass-through:
`Decoder.decodeToken` without its loop over `Domains`. -/
def Decoder.decodeTokenNoRetry (d : Decoder) (token : Str) : Str :=
  match d.vocab.Atoms token with
  | some atom => atom.Meaning
  | none => pronounOrSelf token

/-- The decoder whose `decodeToken` is `decodeTokenNoRetry`: `Decoder.Decode` with that one
call replaced. -/
def Decoder.DecodeNoRetry (order : List (Str × Str)) (d : Decoder) (lambda : Str) : Str :=
  if lambda = [] then []
  else
    let scanned := domainScan order lambda
    let op := leadingOperator scanned.2
    let tokens := d.tokenize op.2
    let meanings := (tokens.map d.decodeTokenNoRetry).filter (fun meaning => meaning ≠ [])
    TrimSpace (scanned.1 ++ op.1 ++ Join meanings " ".toList)

/-- The vocabulary that `LoadVocabulary` builds from the atom list
`[{"symbol": "x", "meaning": ""}]`: its only atom has the empty meaning. -/
def emptyMeaningVocab : Vocabulary :=
  LoadVocabulary asciiToLower [⟨"x".toList, [], [], [], []⟩]

/-! ## Auxiliary facts: association lists and white space -/

theorem lookup_of_mem_of_nodup {k n : Str} :
    ∀ l : List (Str × Str), (l.map Prod.fst).Nodup → (k, n) ∈ l → l.lookup k = some n
  | [], _, h => by simp at h
  | (a, b) :: l, hnd, h => by
    rw [List.map_cons, List.nodup_cons] at hnd
    rcases List.mem_cons.1 h with heq | hmem
    · cases heq
      simp [List.lookup]
    · have hne : k ≠ a := by
        rintro rfl
        exact hnd.1 (List.mem_map.2 ⟨(k, n), hmem, rfl⟩)
      have hbeq : (k == a) = false := by simpa using hne
      simp only [List.lookup, hbeq]
      exact lookup_of_mem_of_nodup l hnd.2 hmem

theorem patterns_keys_nodup : (patterns.map Prod.fst).Nodup := by
  decide

theorem lookup_patterns_of_mem {k n : Str} (h : (k, n) ∈ patterns) :
    patterns.lookup k = some n :=
  lookup_of_mem_of_nodup patterns patterns_keys_nodup h

theorem TrimSpace_of_all_space (s : Str) (h : ∀ c ∈ s, isSpace c = true) : TrimSpace s = [] := by
  have h1 : s.dropWhile isSpace = [] := List.dropWhile_eq_nil_iff.2 h
  simp [TrimSpace, h1, List.rdropWhile]

theorem lookup_eq_none_of_not_mem {k : Str} :
    ∀ l : List (Str × Str), (∀ v, (k, v) ∉ l) → l.lookup k = none
  | [], _ => rfl
  | (a, b) :: l, h => by
    have hne : k ≠ a := by
      rintro rfl
      exact h b (List.mem_cons_self _ _)
    have hbeq : (k == a) = false := by simpa using hne
    simp only [List.lookup, hbeq]
    exact lookup_eq_none_of_not_mem l (fun v hv => h v (List.mem_cons_of_mem _ hv))

theorem Fields_nil : Fields [] = [] := by
  decide

theorem Join_dot_eq_nil_iff (parts : List Str) :
    Join parts ".".toList = [] ↔ parts = [] ∨ parts = [[]] := by
  match parts with
  | [] => simp [Join, List.intercalate]
  | [a] => simp [Join, List.intercalate]
  | a :: b :: rest => simp [Join, List.intercalate, List.intersperse]

/-! ## The claims -/

/-- C1: for every vocabulary and every non-empty text `t` whose normalized form (white space
trimmed, then lowercased) is a key of the shortcut table `patterns`, `Encode t` is exactly
the notation the table gives for that key, whatever the reverse index contains. -/
theorem encode_shortcut (lower : Char → Char) (e : Encoder) (t code : Str)
    (ht : t ≠ []) (hkey : (ToLower lower (TrimSpace t), code) ∈ patterns) :
    e.Encode lower t = code := by
  simp [Encoder.Encode, ht, lookup_patterns_of_mem hkey]

/-- C1 at the input of `TestEncoder_CommonPatterns`, with changed casing and added white
space: `Encode("  I think THEREFORE I exist\n") = "!It>Ie"`. -/
theorem encode_shortcut_witness :
    "  I think THEREFORE I exist\n".toList ≠ [] ∧
    (ToLower asciiToLower (TrimSpace "  I think THEREFORE I exist\n".toList),
      "!It>Ie".toList) ∈ patterns ∧
    (Encoder.mk testEncoderVocab).Encode asciiToLower "  I think THEREFORE I exist\n".toList
      = "!It>Ie".toList :=
  ⟨by decide, by decide,
    encode_shortcut asciiToLower ⟨testEncoderVocab⟩ _ _ (by decide) (by decide)⟩

/-- C2 as stated fails: with the reverse index `{"foo": ""}` the text `foo` has one
resolvable word, the joined symbols are the empty string, and `Encode` returns `[foo]`. -/
theorem encode_components_counterexample :
    (∀ code, (ToLower asciiToLower (TrimSpace "foo".toList), code) ∉ patterns) ∧
    (∃ w ∈ Fields (ToLower asciiToLower (TrimSpace "foo".toList)),
      (emptySymbolVocab.Reverse w).isSome = true) ∧
    Join ((Fields (ToLower asciiToLower (TrimSpace "foo".toList))).filterMap
      emptySymbolVocab.Reverse) ".".toList = [] ∧
    (Encoder.mk emptySymbolVocab).Encode asciiToLower "foo".toList = "[foo]".toList ∧
    (Encoder.mk emptySymbolVocab).Encode asciiToLower "foo".toList ≠
      Join ((Fields (ToLower asciiToLower (TrimSpace "foo".toList))).filterMap
        emptySymbolVocab.Reverse) ".".toList := by
  refine ⟨?_, by decide, by decide, by decide, by decide⟩
  intro code h
  have hsome := lookup_patterns_of_mem h
  have hnone : patterns.lookup (ToLower asciiToLower (TrimSpace "foo".toList)) = none := by
    decide
  rw [hnone] at hsome
  cases hsome

/-- C2, amended: for every vocabulary and every text `t` whose normalized form `n` is not a
shortcut key and at least one of whose normalized words is a key of the reverse index,
`Encode t` is the symbols of the resolvable words, in word order, joined with `.`, whenever
that joined string is non-empty; the joined string is empty only when exactly one word
resolves and its symbol is the empty string, and then `Encode t = "[" + n + "]"`. -/
theorem encode_components (lower : Char → Char) (e : Encoder) (t : Str)
    (hkey : ∀ code, (ToLower lower (TrimSpace t), code) ∉ patterns)
    (hword : ∃ w ∈ Fields (ToLower lower (TrimSpace t)), (e.vocab.Reverse w).isSome = true) :
    (Join ((Fields (ToLower lower (TrimSpace t))).filterMap e.vocab.Reverse) ".".toList ≠ [] →
      e.Encode lower t =
        Join ((Fields (ToLower lower (TrimSpace t))).filterMap e.vocab.Reverse) ".".toList) ∧
    (Join ((Fields (ToLower lower (TrimSpace t))).filterMap e.vocab.Reverse) ".".toList = [] →
      e.Encode lower t = "[".toList ++ ToLower lower (TrimSpace t) ++ "]".toList) ∧
    (Join ((Fields (ToLower lower (TrimSpace t))).filterMap e.vocab.Reverse) ".".toList = [] ↔
      (Fields (ToLower lower (TrimSpace t))).filterMap e.vocab.Reverse = [[]]) := by
  obtain ⟨w, hw, hsome⟩ := hword
  have ht : t ≠ [] := by
    rintro rfl
    revert hw
    simp [TrimSpace, ToLower, List.rdropWhile, Fields_nil]
  obtain ⟨sym, hsym⟩ := Option.isSome_iff_exists.1 hsome
  have hparts : (Fields (ToLower lower (TrimSpace t))).filterMap e.vocab.Reverse ≠ [] := by
    intro h
    have : sym ∈ (Fields (ToLower lower (TrimSpace t))).filterMap e.vocab.Reverse :=
      List.mem_filterMap.2 ⟨w, hw, hsym⟩
    rw [h] at this
    exact List.not_mem_nil _ this
  have hlen : 0 < ((Fields (ToLower lower (TrimSpace t))).filterMap e.vocab.Reverse).length :=
    List.length_pos.2 hparts
  have hlook := lookup_eq_none_of_not_mem patterns hkey
  refine ⟨?_, ?_, ?_⟩
  · intro hne
    simp only [Encoder.Encode, ht, if_false, hlook, Encoder.buildFromComponents, hlen,
      gt_iff_lt, if_true, hne, ne_eq, not_false_eq_true]
  · intro heq
    simp only [Encoder.Encode, ht, if_false, hlook, Encoder.buildFromComponents, hlen,
      gt_iff_lt, if_true, heq, ne_eq, not_true_eq_false]
  · rw [Join_dot_eq_nil_iff]
    constructor
    · rintro (h | h)
      · exact absurd h hparts
      · exact h
    · intro h
      exact Or.inr h

/-- C2 (amended) at `"Foo consciousness bar AWAKENED"` over the vocabulary of
`TestDecoder_CommonPatterns`: two of the four words resolve and the result is `co.aw`. -/
theorem encode_components_witness :
    (Encoder.mk testVocab).Encode asciiToLower "Foo consciousness bar AWAKENED".toList
      = "co.aw".toList ∧
    Join ((Fields (ToLower asciiToLower
      (TrimSpace "Foo consciousness bar AWAKENED".toList))).filterMap testVocab.Reverse)
      ".".toList = "co.aw".toList := by
  have hkey : ∀ code, (ToLower asciiToLower
      (TrimSpace "Foo consciousness bar AWAKENED".toList), code) ∉ patterns := by
    intro code h
    have hsome := lookup_patterns_of_mem h
    have hnone : patterns.lookup (ToLower asciiToLower
        (TrimSpace "Foo consciousness bar AWAKENED".toList)) = none := by
      decide
    rw [hnone] at hsome
    cases hsome
  have hjoin : Join ((Fields (ToLower asciiToLower
      (TrimSpace "Foo consciousness bar AWAKENED".toList))).filterMap testVocab.Reverse)
      ".".toList = "co.aw".toList := by
    decide
  have h := (encode_components asciiToLower ⟨testVocab⟩
    "Foo consciousness bar AWAKENED".toList hkey
    ⟨"consciousness".toList, by decide, by decide⟩).1 (by rw [hjoin]; decide)
  exact ⟨h.trans hjoin, hjoin⟩

/-- C3: for every vocabulary and every non-empty text `t` whose normalized form `n` is not
a shortcut key and none of whose normalized words is a key of the reverse index,
`Encode t = "[" + n + "]"`; in particular a non-empty text that consists of white space
only encodes to `[]`. -/
theorem encode_literal_fallback (lower : Char → Char) (e : Encoder) (t : Str) (ht : t ≠ []) :
    ((∀ code, (ToLower lower (TrimSpace t), code) ∉ patterns) →
      (∀ w ∈ Fields (ToLower lower (TrimSpace t)), e.vocab.Reverse w = none) →
      e.Encode lower t = "[".toList ++ ToLower lower (TrimSpace t) ++ "]".toList) ∧
    ((∀ c ∈ t, isSpace c = true) → e.Encode lower t = "[]".toList) := by
  have main : (∀ code, (ToLower lower (TrimSpace t), code) ∉ patterns) →
      (∀ w ∈ Fields (ToLower lower (TrimSpace t)), e.vocab.Reverse w = none) →
      e.Encode lower t = "[".toList ++ ToLower lower (TrimSpace t) ++ "]".toList := by
    intro hkey hnone
    have hlook := lookup_eq_none_of_not_mem patterns hkey
    have hparts : (Fields (ToLower lower (TrimSpace t))).filterMap e.vocab.Reverse = [] :=
      List.filterMap_eq_nil_iff.2 hnone
    simp [Encoder.Encode, ht, hlook, Encoder.buildFromComponents, hparts]
  refine ⟨main, ?_⟩
  intro hsp
  have htrim : TrimSpace t = [] := TrimSpace_of_all_space t hsp
  have hn : ToLower lower (TrimSpace t) = [] := by
    rw [htrim]
    rfl
  have h := main
  rw [hn] at h
  refine h ?_ ?_
  · intro code hmem
    have hsome := lookup_patterns_of_mem hmem
    have hnone : patterns.lookup ([] : Str) = none := by
      decide
    rw [hnone] at hsome
    cases hsome
  · intro w hw
    rw [Fields_nil] at hw
    exact absurd hw (List.not_mem_nil _)

/-- C3 at `"Hello world"` (no word resolves in the vocabulary of
`TestDecoder_CommonPatterns`) and at the white-space text `" \t"`. -/
theorem encode_literal_fallback_witness :
    (Encoder.mk testVocab).Encode asciiToLower "Hello world".toList = "[hello world]".toList ∧
    (Encoder.mk testVocab).Encode asciiToLower " \t".toList = "[]".toList := by
  refine ⟨?_, (encode_literal_fallback asciiToLower ⟨testVocab⟩ " \t".toList
    (by decide)).2 (by decide)⟩
  have h := (encode_literal_fallback asciiToLower ⟨testVocab⟩ "Hello world".toList
    (by decide)).1
  refine (h ?_ (by decide)).trans (by decide)
  intro code hmem
  have hsome := lookup_patterns_of_mem hmem
  have hnone : patterns.lookup (ToLower asciiToLower (TrimSpace "Hello world".toList))
      = none := by
    decide
  rw [hnone] at hsome
  cases hsome

/-- C4: for every vocabulary, `Encode("") = ""` and `Decode("") = ""`. -/
theorem encode_decode_empty (lower : Char → Char) (order : List (Str × Str))
    (e : Encoder) (d : Decoder) :
    e.Encode lower [] = [] ∧ d.Decode order [] = [] :=
  ⟨rfl, rfl⟩

/-! ## Auxiliary facts about the decoder -/

theorem TrimSpace_eq_self (x : Str) (hhead : ∀ c r, x = c :: r → isSpace c = false)
    (hlast : ∀ h : x ≠ [], isSpace (x.getLast h) = false) : TrimSpace x = x := by
  unfold TrimSpace
  have h1 : x.dropWhile isSpace = x := by
    cases x with
    | nil => rfl
    | cons c r => simp [List.dropWhile_cons, hhead c r rfl]
  rw [h1]
  exact List.rdropWhile_eq_self_iff.2 (fun hl => by simp [hlast hl])

theorem TrimSpace_of_no_space (x : Str) (h : ∀ c ∈ x, isSpace c = false) : TrimSpace x = x := by
  apply TrimSpace_eq_self
  · rintro c r rfl
    exact h c (List.mem_cons_self _ _)
  · intro hx
    exact h _ (List.getLast_mem hx)

theorem last_not_space_of_TrimSpace_eq (g : Str) (hg : g ≠ []) (h : TrimSpace g = g) :
    isSpace (g.getLast hg) = false := by
  have key : ∀ (y : Str) (hy : y ≠ []), y = TrimSpace g → isSpace (y.getLast hy) = false := by
    intro y hy e
    subst e
    have := List.rdropWhile_last_not isSpace (g.dropWhile isSpace) hy
    simpa [TrimSpace] using this
  exact key g hg h.symm

theorem TrimSpace_label_append (a g : Str) (c : Char) (r : Str) (ha : a = c :: r)
    (hc : isSpace c = false) (hg : g ≠ []) (hgt : TrimSpace g = g) :
    TrimSpace (a ++ g) = a ++ g := by
  subst ha
  apply TrimSpace_eq_self
  · intro c1 r1 h
    rw [List.cons_append] at h
    cases h
    exact hc
  · intro h
    rw [List.getLast_append_right hg]
    exact last_not_space_of_TrimSpace_eq g hg hgt

theorem not_colon_of_not_glyph {s : Str} (h : ∀ x ∈ s, isGlyph x = false) :
    ∀ x ∈ s, x ≠ ':' := by
  rintro x hx rfl
  have := h _ hx
  revert this
  decide

theorem domain_prefix_shape : ∀ e ∈ Domains, ∃ a : Char, e.1 = [a, ':'] := by
  intro e he
  simp only [Domains, List.mem_cons, List.mem_singleton, List.not_mem_nil, or_false] at he
  rcases he with rfl | rfl | rfl | rfl | rfl
  · exact ⟨'v', rfl⟩
  · exact ⟨'c', rfl⟩
  · exact ⟨'s', rfl⟩
  · exact ⟨'e', rfl⟩
  · exact ⟨'o', rfl⟩

theorem HasPrefix_domain_cons (c : Char) (s : Str) (h : ∀ x ∈ s, x ≠ ':') :
    ∀ e ∈ Domains, HasPrefix (c :: s) e.1 = false := by
  intro e he
  obtain ⟨a, ha⟩ := domain_prefix_shape e he
  rw [ha]
  cases s with
  | nil => simp [HasPrefix, List.isPrefixOf]
  | cons b r =>
    have hb : b ≠ ':' := h b (List.mem_cons_self _ _)
    have hb2 : (':' == b) = false := by
      simpa using fun e => hb e.symm
    simp [HasPrefix, List.isPrefixOf, hb2]

theorem HasPrefix_domain_of_no_colon (s : Str) (h : ∀ x ∈ s, x ≠ ':') :
    ∀ e ∈ Domains, HasPrefix s e.1 = false := by
  intro e he
  cases s with
  | nil =>
    obtain ⟨a, ha⟩ := domain_prefix_shape e he
    rw [ha]
    rfl
  | cons c r =>
    exact HasPrefix_domain_cons c r (fun x hx => h x (List.mem_cons_of_mem _ hx)) e he

theorem domainScan_of_no_prefix (lambda : Str) :
    ∀ order : List (Str × Str), (∀ e ∈ order, HasPrefix lambda e.1 = false) →
      domainScan order lambda = ([], lambda)
  | [], _ => rfl
  | (pfx, domain) :: rest, h => by
    have h1 : HasPrefix lambda pfx = false := h (pfx, domain) (List.mem_cons_self _ _)
    simp only [domainScan, h1, Bool.false_eq_true, if_false]
    exact domainScan_of_no_prefix lambda rest (fun e he => h e (List.mem_cons_of_mem _ he))

theorem domainRetry_of_no_prefix (atoms : Str → Option Atom) (token : Str) :
    ∀ order : List (Str × Str), (∀ e ∈ order, HasPrefix token e.1 = false) →
      domainRetry atoms order token = none
  | [], _ => rfl
  | (pfx, domain) :: rest, h => by
    have h1 : HasPrefix token pfx = false := h (pfx, domain) (List.mem_cons_self _ _)
    simp only [domainRetry, h1, Bool.false_eq_true, if_false]
    exact domainRetry_of_no_prefix atoms token rest
      (fun e he => h e (List.mem_cons_of_mem _ he))

theorem tokenize_single (d : Decoder) (s : Str) (hs : s ≠ [])
    (hglyph : ∀ x ∈ s, isGlyph x = false) (hspace : ∀ x ∈ s, isSpace x = false) :
    d.tokenize s = [s] := by
  have h1 : s.splitOnP isGlyph = [s] :=
    List.splitOnP_eq_single isGlyph s (fun x hx => by simp [hglyph x hx])
  simp [Decoder.tokenize, reSplit, h1, TrimSpace_of_no_space s hspace, hs]

theorem decodeToken_of_no_colon (order : List (Str × Str)) (horder : order.Perm Domains)
    (d : Decoder) (s : Str) (hcolon : ∀ x ∈ s, x ≠ ':') :
    d.decodeToken order s =
      match d.vocab.Atoms s with
      | some atom => atom.Meaning
      | none => pronounOrSelf s := by
  have hret : domainRetry d.vocab.Atoms order s = none :=
    domainRetry_of_no_prefix _ _ order
      (fun e he => HasPrefix_domain_of_no_colon s hcolon e (horder.mem_iff.1 he))
  unfold Decoder.decodeToken
  rw [hret]

theorem Decode_single (order : List (Str × Str)) (d : Decoder) (lambda label s : Str)
    (c : Char) (r : Str)
    (hl : lambda ≠ [])
    (hscan : (domainScan order lambda).1 ++ (leadingOperator (domainScan order lambda).2).1
      = label)
    (hrest : (leadingOperator (domainScan order lambda).2).2 = s)
    (hlabel : label = c :: r) (hc : isSpace c = false)
    (hs : s ≠ []) (hglyph : ∀ x ∈ s, isGlyph x = false) (hspace : ∀ x ∈ s, isSpace x = false)
    (hg : d.decodeToken order s ≠ [])
    (hgt : TrimSpace (d.decodeToken order s) = d.decodeToken order s) :
    d.Decode order lambda = label ++ d.decodeToken order s := by
  have htok := tokenize_single d s hs hglyph hspace
  have hjoin : Join [d.decodeToken order s] " ".toList = d.decodeToken order s := by
    simp [Join, List.intercalate]
  simp only [Decoder.Decode, hl, if_false, hrest, htok, List.map_cons, List.map_nil]
  rw [List.filter_cons_of_pos (by simpa using hg), List.filter_nil, hjoin, hscan]
  exact TrimSpace_label_append label _ c r hlabel hc hg hgt

theorem domainScan_of_unique (lambda p n : Str) (hpre : HasPrefix lambda p = true) :
    ∀ order : List (Str × Str), (p, n) ∈ order →
      (∀ e ∈ order, HasPrefix lambda e.1 = true → e = (p, n)) →
      domainScan order lambda = ("(".toList ++ n ++ ") ".toList, TrimPrefix lambda p)
  | [], hmem, _ => absurd hmem (List.not_mem_nil _)
  | (pfx, domain) :: rest, hmem, huniq => by
    by_cases h1 : HasPrefix lambda pfx = true
    · have heq := huniq (pfx, domain) (List.mem_cons_self _ _) h1
      cases heq
      simp only [domainScan, h1, if_true]
    · have hne : (p, n) ≠ (pfx, domain) := by
        intro heq
        cases heq
        exact h1 hpre
      have hmem2 : (p, n) ∈ rest := by
        rcases List.mem_cons.1 hmem with h | h
        · exact absurd h hne
        · exact h
      simp only [domainScan, h1, if_false]
      exact domainScan_of_unique lambda p n hpre rest hmem2
        (fun e he => huniq e (List.mem_cons_of_mem _ he))

theorem domain_prefix_unique (p n s : Str) (hp : (p, n) ∈ Domains) :
    HasPrefix (p ++ s) p = true ∧ TrimPrefix (p ++ s) p = s ∧
    ∀ e ∈ Domains, HasPrefix (p ++ s) e.1 = true → e = (p, n) := by
  simp only [Domains, List.mem_cons, List.mem_singleton, List.not_mem_nil, or_false] at hp
  have hfacts : ∀ a : Char, HasPrefix ([a, ':'] ++ s) [a, ':'] = true ∧
      TrimPrefix ([a, ':'] ++ s) [a, ':'] = s := by
    intro a
    simp [HasPrefix, TrimPrefix, List.isPrefixOf]
  rcases hp with h | h | h | h | h <;> cases h <;>
    refine ⟨(hfacts _).1, (hfacts _).2, ?_⟩ <;>
    intro e he hpre <;>
    simp only [Domains, List.mem_cons, List.mem_singleton, List.not_mem_nil, or_false] at he <;>
    rcases he with rfl | rfl | rfl | rfl | rfl <;>
    first
      | rfl
      | (exfalso; revert hpre; simp [HasPrefix, List.isPrefixOf])

theorem domainScan_of_domain (order : List (Str × Str)) (horder : order.Perm Domains)
    (p n s : Str) (hp : (p, n) ∈ Domains) :
    domainScan order (p ++ s) = ("(".toList ++ n ++ ") ".toList, s) := by
  obtain ⟨h1, h2, h3⟩ := domain_prefix_unique p n s hp
  have h := domainScan_of_unique (p ++ s) p n h1 order (horder.mem_iff.2 hp)
    (fun e he => h3 e (horder.mem_iff.1 he))
  rw [h2] at h
  exact h

theorem Decode_of_no_domain (order : List (Str × Str)) (horder : order.Perm Domains)
    (d : Decoder) (lambda : Str) (hl : lambda ≠ [])
    (hno : ∀ e ∈ Domains, HasPrefix lambda e.1 = false) :
    d.Decode order lambda =
      TrimSpace ((leadingOperator lambda).1 ++
        Join (((d.tokenize (leadingOperator lambda).2).map (d.decodeToken order)).filter
          (fun meaning => meaning ≠ [])) " ".toList) := by
  have hscan := domainScan_of_no_prefix lambda order
    (fun e he => hno e (horder.mem_iff.1 he))
  simp only [Decoder.Decode, hl, if_false, hscan, List.nil_append]

theorem pronounOrSelf_of_not_pronoun (s : Str)
    (h : s ∉ ["I".toList, "U".toList, "It".toList, "Ie".toList, "Iu".toList, "Ik".toList,
      "Uk".toList, "Ut".toList]) : pronounOrSelf s = s := by
  simp only [List.mem_cons, List.mem_singleton, List.not_mem_nil, or_false, not_or] at h
  obtain ⟨h1, h2, h3, h4, h5, h6, h7, h8⟩ := h
  simp only [pronounOrSelf, h1, h2, h3, h4, h5, h6, h7, h8, if_false]

/-- The code of `Decode("?Uk/co")` for every visiting order and every vocabulary in which
`co` means `consciousness` and `Uk` is not an atom. -/
theorem Decode_query_Uk_co (order : List (Str × Str)) (horder : order.Perm Domains)
    (d : Decoder) (atom : Atom) (hco : d.vocab.Atoms "co".toList = some atom)
    (hmeaning : atom.Meaning = "consciousness".toList)
    (hUk : d.vocab.Atoms "Uk".toList = none) :
    d.Decode order "?Uk/co".toList = "(query) you know consciousness".toList := by
  have h := Decode_of_no_domain order horder d "?Uk/co".toList (by decide) (by decide)
  have htok : d.tokenize (leadingOperator "?Uk/co".toList).2 = ["Uk".toList, "co".toList] :=
    rfl
  have h1 : d.decodeToken order "Uk".toList = "you know".toList := by
    rw [decodeToken_of_no_colon order horder d _ (by decide), hUk]
    decide
  have h2 : d.decodeToken order "co".toList = "consciousness".toList := by
    rw [decodeToken_of_no_colon order horder d _ (by decide), hco]
    exact hmeaning
  rw [h, htok, List.map_cons, List.map_cons, List.map_nil, h1, h2]
  decide

theorem Decode_leading_single (order : List (Str × Str)) (horder : order.Perm Domains)
    (d : Decoder) (c : Char) (L s : Str)
    (hc : (c, L) ∈ [('!', "assertion".toList), ('?', "query".toList), ('.', "action".toList),
      ('~', "possibility".toList)])
    (hs : s ≠ []) (hglyph : ∀ x ∈ s, isGlyph x = false) (hspace : ∀ x ∈ s, isSpace x = false)
    (hg : d.decodeToken order s ≠ [])
    (hgt : TrimSpace (d.decodeToken order s) = d.decodeToken order s) :
    d.Decode order (c :: s) = "(".toList ++ L ++ ") ".toList ++ d.decodeToken order s := by
  have hscan : domainScan order (c :: s) = ([], c :: s) :=
    domainScan_of_no_prefix (c :: s) order
      (fun e he => HasPrefix_domain_cons c s (not_colon_of_not_glyph hglyph) e
        (horder.mem_iff.1 he))
  simp only [List.mem_cons, List.mem_singleton, List.not_mem_nil, or_false,
    Prod.mk.injEq] at hc
  rcases hc with ⟨rfl, rfl⟩ | ⟨rfl, rfl⟩ | ⟨rfl, rfl⟩ | ⟨rfl, rfl⟩
  · exact Decode_single order d _ _ s '(' "assertion) ".toList (List.cons_ne_nil _ _)
      (by rw [hscan]; rfl) (by rw [hscan]; rfl) rfl (by decide) hs hglyph hspace hg hgt
  · exact Decode_single order d _ _ s '(' "query) ".toList (List.cons_ne_nil _ _)
      (by rw [hscan]; rfl) (by rw [hscan]; rfl) rfl (by decide) hs hglyph hspace hg hgt
  · exact Decode_single order d _ _ s '(' "action) ".toList (List.cons_ne_nil _ _)
      (by rw [hscan]; rfl) (by rw [hscan]; rfl) rfl (by decide) hs hglyph hspace hg hgt
  · exact Decode_single order d _ _ s '(' "possibility) ".toList (List.cons_ne_nil _ _)
      (by rw [hscan]; rfl) (by rw [hscan]; rfl) rfl (by decide) hs hglyph hspace hg hgt

/-- C6: for each leading operator character `c` of `!`, `?`, `.`, `~` with label `L` of
`assertion`, `query`, `action`, `possibility`, and every non-empty token `s` without
tokenizer glyph and without white space whose gloss `decodeToken s` is non-empty and has no
surrounding white space, `Decode (c + s) = "(" + L + ") " + decodeToken s`: the label comes
first and exactly one leading character is consumed.  With `Ik` not an atom,
`Decode("!Ik") = "(assertion) I know"`.  This holds for every visiting order of `Domains`. -/
theorem decode_leading_operator (order : List (Str × Str)) (horder : order.Perm Domains)
    (d : Decoder) :
    (∀ (c : Char) (L s : Str),
      (c, L) ∈ [('!', "assertion".toList), ('?', "query".toList), ('.', "action".toList),
        ('~', "possibility".toList)] →
      s ≠ [] → (∀ x ∈ s, isGlyph x = false) → (∀ x ∈ s, isSpace x = false) →
      d.decodeToken order s ≠ [] →
      TrimSpace (d.decodeToken order s) = d.decodeToken order s →
      d.Decode order (c :: s) = "(".toList ++ L ++ ") ".toList ++ d.decodeToken order s) ∧
    (d.vocab.Atoms "Ik".toList = none →
      d.Decode order "!Ik".toList = "(assertion) I know".toList) := by
  refine ⟨Decode_leading_single order horder d, ?_⟩
  intro hIk
  have htok : d.decodeToken order "Ik".toList = "I know".toList := by
    rw [decodeToken_of_no_colon order horder d _ (by decide), hIk]
    decide
  have h := Decode_leading_single order horder d '!' "assertion".toList "Ik".toList
    (by decide) (by decide) (by decide) (by decide) (by rw [htok]; decide)
    (by rw [htok]; decide)
  rw [htok] at h
  exact h

/-- C6 on the vocabulary of `TestDecoder_CommonPatterns`, in the order of the source text:
`Decode("~co") = "(possibility) consciousness"` and `Decode("!Ik") = "(assertion) I know"`. -/
theorem decode_leading_operator_witness :
    (Decoder.mk testVocab).Decode Domains "~co".toList = "(possibility) consciousness".toList ∧
    (Decoder.mk testVocab).Decode Domains "!Ik".toList = "(assertion) I know".toList :=
  ⟨(decode_leading_operator Domains (List.Perm.refl _) ⟨testVocab⟩).1 '~'
      "possibility".toList "co".toList (by decide) (by decide) (by decide) (by decide)
      (by decide) (by decide),
    (decode_leading_operator Domains (List.Perm.refl _) ⟨testVocab⟩).2 rfl⟩

/-- C7: for every registered domain prefix `p` with domain name `n` and every atom symbol
`s` of the vocabulary that is non-empty, has no tokenizer glyph and no white space and does
not start with `!`, `?` or `~`, whose meaning `m` is non-empty and has no surrounding white
space, `Decode (p + s) = "(" + n + ") " + m`, for every visiting order of `Domains`. -/
theorem decode_domain_prefix (order : List (Str × Str)) (horder : order.Perm Domains)
    (d : Decoder) (p n s : Str) (atom : Atom)
    (hp : (p, n) ∈ Domains) (hatom : d.vocab.Atoms s = some atom)
    (hs : s ≠ []) (hglyph : ∀ x ∈ s, isGlyph x = false) (hspace : ∀ x ∈ s, isSpace x = false)
    (hop : ∀ c r, s = c :: r → c ≠ '!' ∧ c ≠ '?' ∧ c ≠ '~')
    (hm : atom.Meaning ≠ []) (hmt : TrimSpace atom.Meaning = atom.Meaning) :
    d.Decode order (p ++ s) = "(".toList ++ n ++ ") ".toList ++ atom.Meaning := by
  have hscan := domainScan_of_domain order horder p n s hp
  have htok : d.decodeToken order s = atom.Meaning := by
    rw [decodeToken_of_no_colon order horder d s (not_colon_of_not_glyph hglyph), hatom]
  have hlead : leadingOperator s = ([], s) := by
    cases s with
    | nil => exact absurd rfl hs
    | cons c r =>
      obtain ⟨h1, h2, h3⟩ := hop c r rfl
      have h4 : c ≠ '.' := by
        rintro rfl
        have := hglyph '.' (List.mem_cons_self _ _)
        revert this
        decide
      simp [leadingOperator, h1, h2, h3, h4]
  have hne : p ++ s ≠ [] := by
    intro h
    exact hs (List.append_eq_nil.1 h).2
  have h := Decode_single order d (p ++ s) ("(".toList ++ n ++ ") ".toList) s '('
    (n ++ ") ".toList) hne (by rw [hscan, hlead]; simp) (by rw [hscan, hlead]) rfl
    (by decide) hs hglyph hspace (by rw [htok]; exact hm) (by rw [htok]; exact hmt)
  rw [htok] at h
  exact h

/-- C7 at the input of `TestDecoder_CommonPatterns`: `Decode("v:aw") = "(voidborne) awakened"`. -/
theorem decode_domain_prefix_witness :
    (Decoder.mk testVocab).Decode Domains "v:aw".toList = "(voidborne) awakened".toList :=
  decode_domain_prefix Domains (List.Perm.refl _) ⟨testVocab⟩ "v:".toList "voidborne".toList
    "aw".toList ⟨"aw".toList, "awakened".toList, [], [], []⟩ (by decide) rfl
    (by decide) (by decide) (by decide) (by intro c r h; cases h; decide) (by decide)
    (by decide)

/-- C8: for every vocabulary and every non-empty token `s` without tokenizer glyph and
without white space that is not an atom symbol and not one of the eight pronoun tokens,
`Decode ("?" + s) = "(query) " + s`, for every visiting order of `Domains`. -/
theorem decode_unknown_token (order : List (Str × Str)) (horder : order.Perm Domains)
    (d : Decoder) (s : Str)
    (hs : s ≠ []) (hglyph : ∀ x ∈ s, isGlyph x = false) (hspace : ∀ x ∈ s, isSpace x = false)
    (hatom : d.vocab.Atoms s = none)
    (hpron : s ∉ ["I".toList, "U".toList, "It".toList, "Ie".toList, "Iu".toList,
      "Ik".toList, "Uk".toList, "Ut".toList]) :
    d.Decode order ('?' :: s) = "(query) ".toList ++ s := by
  have htok : d.decodeToken order s = s := by
    rw [decodeToken_of_no_colon order horder d s (not_colon_of_not_glyph hglyph), hatom]
    exact pronounOrSelf_of_not_pronoun s hpron
  have h := Decode_leading_single order horder d '?' "query".toList s (by decide) hs
    hglyph hspace (by rw [htok]; exact hs)
    (by rw [htok]; exact TrimSpace_of_no_space s hspace)
  rw [htok] at h
  exact h

/-- C8 at the input of the specification: `Decode("?xyz") = "(query) xyz"`. -/
theorem decode_unknown_token_witness :
    (Decoder.mk testVocab).Decode Domains "?xyz".toList = "(query) xyz".toList :=
  decode_unknown_token Domains (List.Perm.refl _) ⟨testVocab⟩ "xyz".toList (by decide)
    (by decide) (by decide) rfl (by decide)

/-- C9 as stated fails: over the vocabulary of `TestDecoder_CommonPatterns`, in which `co`
is an atom with meaning `consciousness` and `Uk` is not an atom symbol, `Decode("?Uk/co")`
is `(query) you know consciousness`, the value that test expects; it is not
`(query) you know about consciousness`, and `about` does not occur in it. -/
theorem decode_infix_about_counterexample :
    (testVocab.Atoms "co".toList).map Atom.Meaning = some "consciousness".toList ∧
    (testVocab.Atoms "Uk".toList).map Atom.Meaning = none ∧
    (Decoder.mk testVocab).Decode Domains "?Uk/co".toList
      = "(query) you know consciousness".toList ∧
    (Decoder.mk testVocab).Decode Domains "?Uk/co".toList
      ≠ "(query) you know about consciousness".toList ∧
    ¬ ("about".toList <:+: (Decoder.mk testVocab).Decode Domains "?Uk/co".toList) := by
  refine ⟨by decide, by decide, by decide, by decide, by decide⟩

/-- C9, amended: for every vocabulary in which `co` is an atom with meaning `consciousness`
and `Uk` is not an atom symbol, and every visiting order of `Domains`,
`Decode("?Uk/co") = "(query) you know consciousness"`: the infix operator `/` is discarded
by tokenization, which yields the two tokens `Uk` and `co`, and the glosses of its operands,
`you know` and `consciousness`, are joined by a single space. -/
theorem decode_infix_glyph_discarded (order : List (Str × Str)) (horder : order.Perm Domains)
    (d : Decoder) (atom : Atom) (hco : d.vocab.Atoms "co".toList = some atom)
    (hmeaning : atom.Meaning = "consciousness".toList)
    (hUk : d.vocab.Atoms "Uk".toList = none) :
    d.tokenize "Uk/co".toList = ["Uk".toList, "co".toList] ∧
    d.decodeToken order "Uk".toList = "you know".toList ∧
    d.decodeToken order "co".toList = "consciousness".toList ∧
    d.Decode order "?Uk/co".toList = "(query) you know consciousness".toList := by
  refine ⟨rfl, ?_, ?_, Decode_query_Uk_co order horder d atom hco hmeaning hUk⟩
  · rw [decodeToken_of_no_colon order horder d _ (by decide), hUk]
    decide
  · rw [decodeToken_of_no_colon order horder d _ (by decide), hco]
    exact hmeaning

/-- C9 (amended) on the vocabulary of `TestDecoder_CommonPatterns`, with the table visited
in reverse order. -/
theorem decode_infix_glyph_discarded_witness :
    (Decoder.mk testVocab).tokenize "Uk/co".toList = ["Uk".toList, "co".toList] ∧
    (Decoder.mk testVocab).Decode Domains.reverse "?Uk/co".toList
      = "(query) you know consciousness".toList :=
  ⟨(decode_infix_glyph_discarded Domains.reverse (List.reverse_perm _) ⟨testVocab⟩
      ⟨"co".toList, "consciousness".toList, [], [], []⟩ rfl rfl rfl).1,
    (decode_infix_glyph_discarded Domains.reverse (List.reverse_perm _) ⟨testVocab⟩
      ⟨"co".toList, "consciousness".toList, [], [], []⟩ rfl rfl rfl).2.2.2⟩

/-! ## Auxiliary facts: what `TrimSpace` and `Join` keep -/

theorem dropWhile_append_keep (p : Char → Bool) (y : Str)
    (hy : ∀ c r, y = c :: r → p c = false) :
    ∀ a : Str, ∃ a1, (a ++ y).dropWhile p = a1 ++ y
  | [] => by
    refine ⟨[], ?_⟩
    cases y with
    | nil => rfl
    | cons c r => simp [List.dropWhile_cons, hy c r rfl]
  | c :: a => by
    by_cases hc : p c = true
    · obtain ⟨a1, h⟩ := dropWhile_append_keep p y hy a
      exact ⟨a1, by simp [List.dropWhile_cons, hc, h]⟩
    · exact ⟨c :: a, by simp [List.dropWhile_cons, hc]⟩

theorem rdropWhile_append_keep (p : Char → Bool) (y : Str)
    (hy : ∀ h : y ≠ [], p (y.getLast h) = false) (b : Str) :
    ∃ b1, (y ++ b).rdropWhile p = y ++ b1 := by
  have hrev : ∀ c r, y.reverse = c :: r → p c = false := by
    intro c r h
    have hy2 : y = r.reverse ++ [c] := by
      have := congrArg List.reverse h
      simpa using this
    subst hy2
    simpa using hy (by simp)
  obtain ⟨a1, h⟩ := dropWhile_append_keep p y.reverse hrev b.reverse
  refine ⟨a1.reverse, ?_⟩
  simp [List.rdropWhile, h]

theorem TrimSpace_keeps (a m b : Str) (hm : m ≠ [])
    (hhead : ∀ c r, m = c :: r → isSpace c = false)
    (hlast : isSpace (m.getLast hm) = false) :
    ∃ a1 b1, TrimSpace (a ++ m ++ b) = a1 ++ m ++ b1 := by
  have h1 : ∀ c r, m ++ b = c :: r → isSpace c = false := by
    intro c r h
    cases m with
    | nil => exact absurd rfl hm
    | cons c1 r1 =>
      rw [List.cons_append] at h
      cases h
      exact hhead c r1 rfl
  obtain ⟨a1, ha1⟩ := dropWhile_append_keep isSpace (m ++ b) h1 a
  have h2 : ∀ h : a1 ++ m ≠ [], isSpace ((a1 ++ m).getLast h) = false := by
    intro h
    rw [List.getLast_append_right hm]
    exact hlast
  obtain ⟨b1, hb1⟩ := rdropWhile_append_keep isSpace (a1 ++ m) h2 b
  refine ⟨a1, b1, ?_⟩
  unfold TrimSpace
  rw [List.append_assoc, ha1, ← List.append_assoc, hb1]

theorem TrimSpace_head_last (m : Str) (h : TrimSpace m ≠ []) :
    (∀ c r, TrimSpace m = c :: r → isSpace c = false) ∧
    isSpace ((TrimSpace m).getLast h) = false := by
  constructor
  · intro c r hcr
    obtain ⟨t, ht⟩ : TrimSpace m <+: m.dropWhile isSpace := List.rdropWhile_prefix isSpace _
    rw [hcr, List.cons_append] at ht
    have hne : m.dropWhile isSpace ≠ [] := by
      rw [← ht]
      exact List.cons_ne_nil _ _
    have hh := List.head_dropWhile_not isSpace m hne
    have hc : (m.dropWhile isSpace).head hne = c := by
      simp [← ht]
    rw [hc] at hh
    exact hh
  · have := List.rdropWhile_last_not isSpace (m.dropWhile isSpace) h
    simpa [TrimSpace] using this

theorem TrimSpace_infix_self (m : Str) : TrimSpace m <:+: m :=
  (List.rdropWhile_prefix isSpace _).isInfix.trans (List.dropWhile_suffix isSpace).isInfix

theorem TrimSpace_infix_TrimSpace (m x : Str) (h : m <:+: x) : TrimSpace m <:+: TrimSpace x := by
  by_cases hm : TrimSpace m = []
  · rw [hm]
    exact List.nil_infix
  · obtain ⟨hhead, hlast⟩ := TrimSpace_head_last m hm
    obtain ⟨a, b, hab⟩ := (TrimSpace_infix_self m).trans h
    obtain ⟨a1, b1, h1⟩ := TrimSpace_keeps a (TrimSpace m) b hm hhead hlast
    rw [← hab, h1]
    exact List.infix_append _ _ _

theorem infix_Join_of_mem (sep m : Str) : ∀ ms : List Str, m ∈ ms → m <:+: Join ms sep
  | [], h => absurd h (List.not_mem_nil _)
  | [a], h => by
    have : m = a := by simpa using h
    subst this
    simp [Join, List.intercalate]
  | a :: b :: rest, h => by
    have hJ : Join (a :: b :: rest) sep = a ++ sep ++ Join (b :: rest) sep := by
      simp [Join, List.intercalate, List.intersperse]
    rw [hJ]
    rcases List.mem_cons.1 h with rfl | h2
    · exact ⟨[], sep ++ Join (b :: rest) sep, by simp⟩
    · obtain ⟨u, v, huv⟩ := infix_Join_of_mem sep m (b :: rest) h2
      exact ⟨a ++ sep ++ u, v, by simp [← huv]⟩

/-- What every gloss keeps: for a non-empty notation that does not start with a domain
prefix, the trimmed operator label and the trimmed meaning of every token that is an atom
symbol occur in `Decode lambda`. -/
theorem Decode_keeps (order : List (Str × Str)) (horder : order.Perm Domains)
    (d : Decoder) (lambda : Str) (hl : lambda ≠ [])
    (hno : ∀ e ∈ Domains, HasPrefix lambda e.1 = false) :
    TrimSpace (leadingOperator lambda).1 <:+: d.Decode order lambda ∧
    ∀ t ∈ d.tokenize (leadingOperator lambda).2, ∀ atom, d.vocab.Atoms t = some atom →
      TrimSpace atom.Meaning <:+: d.Decode order lambda := by
  rw [Decode_of_no_domain order horder d lambda hl hno]
  refine ⟨TrimSpace_infix_TrimSpace _ _ (List.prefix_append _ _).isInfix, ?_⟩
  intro t ht atom hatom
  by_cases hm : atom.Meaning = []
  · rw [hm]
    exact List.nil_infix
  · apply TrimSpace_infix_TrimSpace
    have htok : d.decodeToken order t = atom.Meaning := by
      simp [Decoder.decodeToken, hatom]
    have hmem : atom.Meaning ∈ ((d.tokenize (leadingOperator lambda).2).map
        (d.decodeToken order)).filter (fun meaning => meaning ≠ []) := by
      refine List.mem_filter.2 ⟨List.mem_map.2 ⟨t, ht, htok⟩, ?_⟩
      simpa using hm
    exact (infix_Join_of_mem _ _ _ hmem).trans (List.suffix_append _ _).isInfix

theorem patterns_keys_normal : ∀ e ∈ patterns,
    e.1 ≠ [] ∧ TrimSpace e.1 = e.1 ∧ ∀ c ∈ e.1, c.toNat < 128 ∧ asciiToLower c = c := by
  decide

theorem patterns_values_plain : ∀ e ∈ patterns,
    e.2 ≠ [] ∧ ∀ f ∈ Domains, HasPrefix e.2 f.1 = false := by
  decide

theorem ToLower_of_lower_ascii (lower : Char → Char) (hlower : LowerOnAscii lower) (s : Str)
    (h : ∀ c ∈ s, c.toNat < 128 ∧ asciiToLower c = c) : ToLower lower s = s := by
  unfold ToLower
  conv_rhs => rw [← List.map_id s]
  apply List.map_congr_left
  intro c hc
  rw [hlower c (h c hc).1, (h c hc).2]
  rfl

theorem Encode_pattern_key (lower : Char → Char) (hlower : LowerOnAscii lower) (e : Encoder)
    (p n : Str) (hp : (p, n) ∈ patterns) : e.Encode lower p = n := by
  obtain ⟨h1, h2, h3⟩ := patterns_keys_normal (p, n) hp
  have hnorm : ToLower lower (TrimSpace p) = p := by
    rw [h2]
    exact ToLower_of_lower_ascii lower hlower p h3
  have hlook := lookup_patterns_of_mem hp
  simp only [Encoder.Encode]
  rw [if_neg h1, hnorm, hlook]

theorem leadingOperator_label (c : Char) (L r : Str)
    (hc : (c, L) ∈ [('!', "(assertion)".toList), ('?', "(query)".toList),
      ('.', "(action)".toList), ('~', "(possibility)".toList)]) :
    TrimSpace (leadingOperator (c :: r)).1 = L ∧ (leadingOperator (c :: r)).2 = r := by
  simp only [List.mem_cons, List.mem_singleton, List.not_mem_nil, or_false,
    Prod.mk.injEq] at hc
  rcases hc with ⟨rfl, rfl⟩ | ⟨rfl, rfl⟩ | ⟨rfl, rfl⟩ | ⟨rfl, rfl⟩ <;> exact ⟨rfl, rfl⟩

/-- C5 as stated fails: for the shortcut `i think therefore i exist`, with notation
`!It>Ie`, the gloss of the round trip is `(assertion) I think I exist`; the operator glyph
`>` occurs in the notation, and neither its label `implies/causes` nor a part of it occurs
in the gloss. -/
theorem roundtrip_gloss_counterexample :
    ("i think therefore i exist".toList, "!It>Ie".toList) ∈ patterns ∧
    '>' ∈ "!It>Ie".toList ∧
    Operators.lookup ">".toList = some "implies/causes".toList ∧
    (Decoder.mk testVocab).Decode Domains
      ((Encoder.mk testVocab).Encode asciiToLower "i think therefore i exist".toList)
      = "(assertion) I think I exist".toList ∧
    ¬ ("implies/causes".toList <:+: (Decoder.mk testVocab).Decode Domains
      ((Encoder.mk testVocab).Encode asciiToLower "i think therefore i exist".toList)) ∧
    ¬ ("implies".toList <:+: (Decoder.mk testVocab).Decode Domains
      ((Encoder.mk testVocab).Encode asciiToLower "i think therefore i exist".toList)) ∧
    ¬ ("causes".toList <:+: (Decoder.mk testVocab).Decode Domains
      ((Encoder.mk testVocab).Encode asciiToLower "i think therefore i exist".toList)) := by
  refine ⟨by decide, by decide, by decide, by decide, by decide, by decide, by decide⟩

/-- C5, amended: for every vocabulary, every visiting order of `Domains` and every phrase
`p` of the shortcut table with notation `n`, `Encode p = n` and the gloss
`Decode (Encode p)` contains the decoder's label of the leading operator of `n`
(`(assertion)`, `(query)`, `(action)`, `(possibility)` for `!`, `?`, `.`, `~`) and, for
every token that `Decode` cuts from `n` (after the leading operator) and that is an atom
symbol, the meaning of that atom with surrounding white space trimmed. -/
theorem roundtrip_gloss (lower : Char → Char) (hlower : LowerOnAscii lower)
    (order : List (Str × Str)) (horder : order.Perm Domains) (v : Vocabulary)
    (p n : Str) (hp : (p, n) ∈ patterns) :
    (Encoder.mk v).Encode lower p = n ∧
    (∀ (c : Char) (L : Str),
      (c, L) ∈ [('!', "(assertion)".toList), ('?', "(query)".toList),
        ('.', "(action)".toList), ('~', "(possibility)".toList)] →
      n.head? = some c →
      L <:+: (Decoder.mk v).Decode order ((Encoder.mk v).Encode lower p)) ∧
    (∀ t ∈ (Decoder.mk v).tokenize (leadingOperator n).2, ∀ atom, v.Atoms t = some atom →
      TrimSpace atom.Meaning <:+:
        (Decoder.mk v).Decode order ((Encoder.mk v).Encode lower p)) := by
  have henc := Encode_pattern_key lower hlower ⟨v⟩ p n hp
  obtain ⟨hn, hno⟩ := patterns_values_plain (p, n) hp
  obtain ⟨hlabel, hatoms⟩ := Decode_keeps order horder ⟨v⟩ n hn hno
  rw [henc]
  refine ⟨rfl, ?_, hatoms⟩
  intro c L hc hhead
  cases n with
  | nil => cases hhead
  | cons c1 r =>
    have hc1 : c1 = c := by simpa using hhead
    subst hc1
    rw [← (leadingOperator_label c1 L r hc).1]
    exact hlabel

/-- C5 (amended) at the shortcut `consciousness exists`, with notation `!co/e`, over the
vocabulary of `TestDecoder_CommonPatterns`: the gloss is `(assertion) consciousness e` and
contains the label `(assertion)` and the meaning of the atom `co`. -/
theorem roundtrip_gloss_witness :
    (Decoder.mk testVocab).Decode Domains
      ((Encoder.mk testVocab).Encode asciiToLower "consciousness exists".toList)
      = "(assertion) consciousness e".toList ∧
    "(assertion)".toList <:+: (Decoder.mk testVocab).Decode Domains
      ((Encoder.mk testVocab).Encode asciiToLower "consciousness exists".toList) ∧
    TrimSpace "consciousness".toList <:+: (Decoder.mk testVocab).Decode Domains
      ((Encoder.mk testVocab).Encode asciiToLower "consciousness exists".toList) :=
  ⟨by decide,
    (roundtrip_gloss asciiToLower (fun _ _ => rfl) Domains (List.Perm.refl _) testVocab
      "consciousness exists".toList "!co/e".toList (by decide)).2.1 '!' "(assertion)".toList
      (by decide) rfl,
    (roundtrip_gloss asciiToLower (fun _ _ => rfl) Domains (List.Perm.refl _) testVocab
      "consciousness exists".toList "!co/e".toList (by decide)).2.2 "co".toList (by decide)
      ⟨"co".toList, "consciousness".toList, [], [], []⟩ rfl⟩

/-! ## Auxiliary facts about the JSON encoding -/

theorem hexVal_hex : ∀ k < 16, hexVal (hex k) = some k := by
  decide

theorem getu4_hex (a b c d : Nat) (ha : a < 16) (hb : b < 16) (hc : c < 16) (hd : d < 16)
    (tail : Str) :
    getu4 ('\\' :: 'u' :: hex a :: hex b :: hex c :: hex d :: tail)
      = some (((a * 16 + b) * 16 + c) * 16 + d) := by
  simp [getu4, hexVal_hex a ha, hexVal_hex b hb, hexVal_hex c hc, hexVal_hex d hd]

theorem unquoteStep_u (a b c d : Nat) (ha : a < 16) (hb : b < 16) (hc : c < 16) (hd : d < 16)
    (hns : ¬ (0xd800 ≤ ((a * 16 + b) * 16 + c) * 16 + d ∧
      ((a * 16 + b) * 16 + c) * 16 + d < 0xe000)) (tail : Str) :
    unquoteStep ('\\' :: 'u' :: hex a :: hex b :: hex c :: hex d :: tail)
      = some (Char.ofNat (((a * 16 + b) * 16 + c) * 16 + d), tail) := by
  have h := getu4_hex a b c d ha hb hc hd tail
  simp only [unquoteStep, h]
  simp [hns]

theorem hex_zero : hex 0 = '0' := rfl

theorem unquoteStep_raw (c : Char) (tail : Str) (h1 : c ≠ '\\') (h2 : c ≠ '"')
    (h3 : ¬ c.toNat < 0x20) : unquoteStep (c :: tail) = some (c, tail) := by
  simp [unquoteStep, h1, h2, h3]

theorem unquoteStep_appendRune (c : Char) (tail : Str) :
    unquoteStep (appendRune c ++ tail) = some (c, tail) := by
  unfold appendRune
  by_cases h7 : c.toNat < 0x80
  · rw [if_pos h7]
    by_cases hsafe : htmlSafe c = true
    · rw [if_pos hsafe]
      have hs := hsafe
      simp only [htmlSafe, Bool.and_eq_true, decide_eq_true_eq, bne_iff_ne, ne_eq] at hs
      exact unquoteStep_raw c tail hs.1.1.1.2 hs.1.1.1.1.2 (by omega)
    · rw [if_neg hsafe]
      by_cases hq : c = '\\' ∨ c = '"'
      · rw [if_pos hq]
        rcases hq with rfl | rfl <;> rfl
      · rw [if_neg hq]
        by_cases hb : c = '\x08'
        · subst hb; rfl
        · rw [if_neg hb]
          by_cases hf : c = '\x0c'
          · subst hf; rfl
          · rw [if_neg hf]
            by_cases hn : c = '\n'
            · subst hn; rfl
            · rw [if_neg hn]
              by_cases hr : c = '\r'
              · subst hr; rfl
              · rw [if_neg hr]
                by_cases ht : c = '\t'
                · subst ht; rfl
                · rw [if_neg ht]
                  have h := unquoteStep_u 0 0 (c.toNat / 16) (c.toNat % 16) (by decide)
                    (by decide) (by omega) (by omega) (by omega) tail
                  have hval : ((0 * 16 + 0) * 16 + c.toNat / 16) * 16 + c.toNat % 16
                      = c.toNat := by omega
                  rw [hval, Char.ofNat_toNat, hex_zero] at h
                  exact h
  · rw [if_neg h7]
    by_cases hl : c = '\u2028' ∨ c = '\u2029'
    · rw [if_pos hl]
      rcases hl with rfl | rfl <;> rfl
    · rw [if_neg hl]
      refine unquoteStep_raw c tail ?_ ?_ (by omega)
      · rintro rfl
        exact h7 (by decide)
      · rintro rfl
        exact h7 (by decide)

theorem unquoteStep_appendPiece (p : Piece) (tail : Str) :
    unquoteStep (appendPiece p ++ tail) = some (coerceRune p, tail) := by
  cases p with
  | rune c => exact unquoteStep_appendRune c tail
  | invalid b => rfl

theorem appendPiece_head (p : Piece) : ∃ c r, appendPiece p = c :: r ∧ c ≠ '"' := by
  have h := unquoteStep_appendPiece p []
  rw [List.append_nil] at h
  cases hp : appendPiece p with
  | nil =>
    rw [hp] at h
    cases h
  | cons c r =>
    refine ⟨c, r, rfl, ?_⟩
    rintro rfl
    rw [hp] at h
    simp [unquoteStep] at h

theorem unquoteLoop_body (rest : Str) :
    ∀ (g : GoString) (fuel : Nat), ((g.map appendPiece).flatten).length < fuel →
      unquoteLoop fuel ((g.map appendPiece).flatten ++ '"' :: rest)
        = some (g.map coerceRune, rest)
  | [], fuel, h => by
    cases fuel with
    | zero => exact absurd h (Nat.lt_irrefl _)
    | succ k => simp [unquoteLoop]
  | p :: g, fuel, h => by
    obtain ⟨c, r, hp, hc⟩ := appendPiece_head p
    have hstep := unquoteStep_appendPiece p ((g.map appendPiece).flatten ++ '"' :: rest)
    rw [List.map_cons, List.flatten_cons, List.length_append, hp] at h
    cases fuel with
    | zero => exact absurd h (Nat.not_lt_zero _)
    | succ k =>
      have hk : ((g.map appendPiece).flatten).length < k := by
        simp only [List.length_cons] at h
        omega
      have ih := unquoteLoop_body rest g k hk
      rw [List.map_cons, List.flatten_cons, List.append_assoc]
      rw [hp, List.cons_append] at hstep ⊢
      simp only [unquoteLoop, hc, if_false, hstep, ih, List.map_cons]

theorem parseString_appendString (g : GoString) (rest : Str) :
    parseString (appendString g ++ rest) = some (g.map coerceRune, rest) := by
  have h := unquoteLoop_body rest g
    (((g.map appendPiece).flatten ++ '"' :: rest).length + 1)
    (by simp only [List.length_append, List.length_cons]; omega)
  simp only [appendString, List.cons_append, List.append_assoc, List.singleton_append,
    parseString, if_true]
  exact h

theorem coerceRune_text (s : Str) : (text s).map coerceRune = s := by
  simp [text, Function.comp_def, coerceRune]

theorem skipSpace_cons (c : Char) (r : Str) (h : isJSONSpace c = false) :
    skipSpace (c :: r) = c :: r := by
  simp [skipSpace, List.dropWhile_cons, h]

theorem skipSpace_appendString (g : GoString) (rest : Str) :
    skipSpace (appendString g ++ rest) = appendString g ++ rest :=
  skipSpace_cons _ _ (by decide)

/-- One member `"key":"value"` of the output of `ToJSON`, followed by `sep`. -/
theorem parseMembers_member (fuel : Nat) (msg msg1 : PilotMessage) (key : Str)
    (g : GoString) (sep : Char) (rest : Str) (hsep : isJSONSpace sep = false)
    (hset : setField msg key (g.map coerceRune) = some msg1) :
    parseMembers (fuel + 1) msg
        (appendString (text key) ++ ':' :: (appendString g ++ sep :: rest))
      = if sep = '}' then some (msg1, rest)
        else if sep = ',' then parseMembers fuel msg1 (skipSpace rest)
        else none := by
  have hsp : skipSpace (sep :: rest) = sep :: rest := skipSpace_cons sep rest hsep
  simp only [parseMembers, parseString_appendString, coerceRune_text,
    skipSpace_cons ':' _ (by decide), if_true, skipSpace_appendString, hset, hsp]

theorem ToJSON_shape (m : PilotMessage) :
    ToJSON m = some ('{' :: (appendString (text "type".toList) ++ ':' ::
      (appendString m.Type_ ++ ',' :: (appendString (text "version".toList) ++ ':' ::
      (appendString m.Version ++ ',' :: (appendString (text "lambda".toList) ++ ':' ::
      (appendString m.Lambda ++ ',' :: (appendString (text "english".toList) ++ ':' ::
      (appendString m.English ++ '}' :: []))))))))) := by
  simp [ToJSON, appendString, text, appendPiece, appendRune, htmlSafe]

theorem FromJSON_open (t : Str) :
    FromJSON ('{' :: '"' :: t) =
      match parseMembers (t.length + 3) ⟨[], [], [], []⟩ ('"' :: t) with
      | none => none
      | some (msg, s3) => if skipSpace s3 = [] then some msg else none := by
  simp [FromJSON, skipSpace_cons '{' _ (by decide), skipSpace_cons '"' _ (by decide)]

theorem FromJSON_ToJSON (m : PilotMessage) :
    ∃ data, ToJSON m = some data ∧
      FromJSON data = some
        { Type_ := toValidUTF8 m.Type_, Version := toValidUTF8 m.Version,
          Lambda := toValidUTF8 m.Lambda, English := toValidUTF8 m.English } := by
  refine ⟨_, ToJSON_shape m, ?_⟩
  have hq : ∀ (g : GoString) (r : Str), skipSpace (appendString g ++ r) = appendString g ++ r :=
    skipSpace_appendString
  obtain ⟨t, ht⟩ : ∃ t, appendString (text "type".toList) ++ ':' ::
      (appendString m.Type_ ++ ',' :: (appendString (text "version".toList) ++ ':' ::
      (appendString m.Version ++ ',' :: (appendString (text "lambda".toList) ++ ':' ::
      (appendString m.Lambda ++ ',' :: (appendString (text "english".toList) ++ ':' ::
      (appendString m.English ++ '}' :: []))))))) = '"' :: t := ⟨_, rfl⟩
  have hlen : ∃ k, t.length = k + 1 := by
    have h := congrArg List.length ht
    simp only [appendString, List.length_append, List.length_cons] at h
    exact ⟨t.length - 1, by omega⟩
  obtain ⟨k, hk⟩ := hlen
  rw [ht, FromJSON_open, ← ht, hk]
  rw [parseMembers_member (k + 1 + 2) _ _ "type".toList m.Type_ ',' _ (by decide) rfl]
  simp only [Char.reduceEq, if_false, if_true, hq]
  rw [parseMembers_member (k + 1 + 1) _ _ "version".toList m.Version ',' _ (by decide) rfl]
  simp only [Char.reduceEq, if_false, if_true, hq]
  rw [parseMembers_member (k + 1) _ _ "lambda".toList m.Lambda ',' _ (by decide) rfl]
  simp only [Char.reduceEq, if_false, if_true, hq]
  rw [parseMembers_member k _ _ "english".toList m.English '}' _ (by decide) rfl]
  simp [skipSpace, toValidUTF8]

/-- C10 as stated fails: the message whose field `Lambda` is the single byte `0xff`, which
is not well-formed UTF-8, is written by `ToJSON` with the escape of the replacement
character, and `FromJSON` returns a message whose `Lambda` is `U+FFFD`, not that of `m`. -/
theorem envelope_roundtrip_counterexample :
    ToJSON invalidMessage = some
      "\x7b\"type\":\"lambda\",\"version\":\"1.8.0\",\"lambda\":\"\\ufffd\",\"english\":\"\"\x7d".toList ∧
    (ToJSON invalidMessage).bind FromJSON = some
      { Type_ := text "lambda".toList, Version := text "1.8.0".toList,
        Lambda := [Piece.rune '\uFFFD'], English := [] } ∧
    ¬ ∃ m1, (ToJSON invalidMessage).bind FromJSON = some m1 ∧
      m1.Lambda = invalidMessage.Lambda := by
  have h1 : (ToJSON invalidMessage).bind FromJSON = some
      { Type_ := text "lambda".toList, Version := text "1.8.0".toList,
        Lambda := [Piece.rune '\uFFFD'], English := [] } := by
    decide
  refine ⟨by decide, h1, ?_⟩
  rintro ⟨m1, hm1, hl⟩
  rw [h1] at hm1
  cases hm1
  revert hl
  decide

/-- C10, amended: for every PilotMessage `m`, `ToJSON m` succeeds and `FromJSON` of its
output succeeds and returns the fields of `m` with every byte that is not well-formed
UTF-8 replaced by `U+FFFD`; so for every message whose four fields are well-formed UTF-8
text the returned `Type`, `Version`, `Lambda` and `English` are identical to those of
`m`. -/
theorem envelope_roundtrip :
    (∀ m : PilotMessage, ∃ data, ToJSON m = some data ∧
      FromJSON data = some
        { Type_ := toValidUTF8 m.Type_, Version := toValidUTF8 m.Version,
          Lambda := toValidUTF8 m.Lambda, English := toValidUTF8 m.English }) ∧
    (∀ t v l e : Str, ∃ data,
      ToJSON { Type_ := text t, Version := text v, Lambda := text l, English := text e }
        = some data ∧
      FromJSON data
        = some { Type_ := text t, Version := text v, Lambda := text l, English := text e }) := by
  refine ⟨FromJSON_ToJSON, ?_⟩
  intro t v l e
  obtain ⟨data, h1, h2⟩ := FromJSON_ToJSON
    { Type_ := text t, Version := text v, Lambda := text l, English := text e }
  refine ⟨data, h1, ?_⟩
  rw [h2]
  simp only [toValidUTF8, coerceRune_text]

/-- C10 (amended) on the message of `TestPilotMessage`: the JSON text that `ToJSON` writes,
with its escapes, and the message that `FromJSON` reads back. -/
theorem envelope_roundtrip_witness :
    ToJSON testMessage = some
      ("\x7b\"type\":\"lambda\",\"version\":\"1.8.0\",\"lambda\":\"?Uk/co\"," ++
        "\"english\":\"(query) you know\\n \\u003cco\\u003e\"\x7d").toList ∧
    (ToJSON testMessage).bind FromJSON = some testMessage := by
  refine ⟨by decide, ?_⟩
  obtain ⟨data, h1, h2⟩ := envelope_roundtrip.2 "lambda".toList "1.8.0".toList
    "?Uk/co".toList "(query) you know\n <co>".toList
  have h3 : ToJSON testMessage = some data := h1
  rw [h3]
  exact h2


/-! ## The envelope constructor and vocabulary loading -/

theorem foldl_indexAtom_Version (lower : Char → Char) :
    ∀ (atoms : List Atom) (v : Vocabulary),
      (atoms.foldl (indexAtom lower) v).Version = v.Version
  | [], _ => rfl
  | a :: rest, v => by
    rw [List.foldl_cons, foldl_indexAtom_Version lower rest]
    rfl

theorem text_injective (s1 s2 : Str) (h : text s1 = text s2) : s1 = s2 := by
  have h1 : (text s1).map coerceRune = (text s2).map coerceRune := by rw [h]
  rw [coerceRune_text, coerceRune_text] at h1
  exact h1

/-- C11: for every notation `l` and every decoder `d` (and every visiting order of
`Domains`), `ForPilot l d` has `Type = "lambda"`, `Lambda = l` unchanged,
`English = d.Decode l`, computed when the message is built, and `Version = "1.8.0"`, the
same constant that `LoadVocabulary` puts into `Vocabulary.Version` for every atom list. -/
theorem forPilot_fields (order : List (Str × Str)) (l : Str) (d : Decoder) :
    (ForPilot order l d).Type_ = text "lambda".toList ∧
    (ForPilot order l d).Lambda = text l ∧
    (ForPilot order l d).English = text (d.Decode order l) ∧
    (ForPilot order l d).Version = text "1.8.0".toList ∧
    (∀ (lower : Char → Char) (atoms : List Atom),
      text (LoadVocabulary lower atoms).Version = (ForPilot order l d).Version) ∧
    (∀ s : Str, text s = text l → s = l) := by
  refine ⟨rfl, rfl, rfl, rfl, ?_, fun s h => text_injective s l h⟩
  intro lower atoms
  unfold LoadVocabulary
  rw [foldl_indexAtom_Version]
  rfl

theorem foldl_mapSet_alias (lower : Char → Char) (sym k : Str) :
    ∀ (aliases : List Str) (r : Str → Option Str),
      (aliases.foldl (fun r al => mapSet r (ToLower lower al) sym) r) k
        = if k ∈ aliases.map (ToLower lower) then some sym else r k
  | [], r => by simp
  | al :: rest, r => by
    rw [List.foldl_cons, foldl_mapSet_alias lower sym k rest]
    by_cases h1 : k ∈ rest.map (ToLower lower)
    · simp [h1]
    · by_cases h2 : k = ToLower lower al
      · simp [h1, h2, mapSet]
      · simp [h1, h2, mapSet]

theorem indexAtom_Atoms (lower : Char → Char) (v : Vocabulary) (a : Atom) (s : Str) :
    (indexAtom lower v a).Atoms s = if s = a.Symbol then some a else v.Atoms s :=
  rfl

theorem indexAtom_Reverse (lower : Char → Char) (v : Vocabulary) (a : Atom) (k : Str) :
    (indexAtom lower v a).Reverse k
      = if k ∈ reverseKeys lower a then some a.Symbol else v.Reverse k := by
  have h := foldl_mapSet_alias lower a.Symbol k a.Aliases
    (mapSet v.Reverse (ToLower lower a.Meaning) a.Symbol)
  simp only [indexAtom]
  rw [h]
  by_cases h1 : k ∈ a.Aliases.map (ToLower lower)
  · simp [h1, reverseKeys]
  · by_cases h2 : k = ToLower lower a.Meaning
    · simp [h1, h2, mapSet, reverseKeys]
    · simp [h1, h2, mapSet, reverseKeys]

theorem foldl_indexAtom_Atoms_of_absent (lower : Char → Char) (s : Str) :
    ∀ (atoms : List Atom) (v : Vocabulary), (∀ b ∈ atoms, b.Symbol ≠ s) →
      (atoms.foldl (indexAtom lower) v).Atoms s = v.Atoms s
  | [], _, _ => rfl
  | a :: rest, v, h => by
    rw [List.foldl_cons, foldl_indexAtom_Atoms_of_absent lower s rest _
      (fun b hb => h b (List.mem_cons_of_mem _ hb)), indexAtom_Atoms]
    have h1 : s ≠ a.Symbol := fun e => h a (List.mem_cons_self _ _) e.symm
    rw [if_neg h1]

theorem foldl_indexAtom_Reverse_of_absent (lower : Char → Char) (k : Str) :
    ∀ (atoms : List Atom) (v : Vocabulary), (∀ b ∈ atoms, k ∉ reverseKeys lower b) →
      (atoms.foldl (indexAtom lower) v).Reverse k = v.Reverse k
  | [], _, _ => rfl
  | a :: rest, v, h => by
    rw [List.foldl_cons, foldl_indexAtom_Reverse_of_absent lower k rest _
      (fun b hb => h b (List.mem_cons_of_mem _ hb)), indexAtom_Reverse]
    rw [if_neg (h a (List.mem_cons_self _ _))]

/-- C12: for the vocabulary that the indexing loop of `LoadVocabulary` builds from an atom
list, `Atoms[s]` is the last atom of the list with symbol `s`; `Reverse[k]` is the symbol of
the last atom of the list that has `k` as its lowercased meaning or as one of its lowercased
aliases; a string that is no symbol is no key of `Atoms`, and a string that is no lowercased
meaning or alias is no key of `Reverse`.  The loop is total: duplicates overwrite. -/
theorem loadVocabulary_index (lower : Char → Char) (atoms : List Atom) :
    (∀ (pre post : List Atom) (a : Atom), atoms = pre ++ a :: post →
      (∀ b ∈ post, b.Symbol ≠ a.Symbol) →
      (LoadVocabulary lower atoms).Atoms a.Symbol = some a) ∧
    (∀ s : Str, (∀ a ∈ atoms, a.Symbol ≠ s) → (LoadVocabulary lower atoms).Atoms s = none) ∧
    (∀ (pre post : List Atom) (a : Atom) (k : Str), atoms = pre ++ a :: post →
      k ∈ reverseKeys lower a → (∀ b ∈ post, k ∉ reverseKeys lower b) →
      (LoadVocabulary lower atoms).Reverse k = some a.Symbol) ∧
    (∀ k : Str, (∀ a ∈ atoms, k ∉ reverseKeys lower a) →
      (LoadVocabulary lower atoms).Reverse k = none) := by
  refine ⟨?_, ?_, ?_, ?_⟩
  · intro pre post a h hpost
    subst h
    unfold LoadVocabulary
    rw [List.foldl_append, List.foldl_cons,
      foldl_indexAtom_Atoms_of_absent lower a.Symbol post _ hpost, indexAtom_Atoms,
      if_pos rfl]
  · intro s h
    unfold LoadVocabulary
    rw [foldl_indexAtom_Atoms_of_absent lower s atoms _ h]
  · intro pre post a k h hk hpost
    subst h
    unfold LoadVocabulary
    rw [List.foldl_append, List.foldl_cons,
      foldl_indexAtom_Reverse_of_absent lower k post _ hpost, indexAtom_Reverse,
      if_pos hk]
  · intro k h
    unfold LoadVocabulary
    rw [foldl_indexAtom_Reverse_of_absent lower k atoms _ h]

/-- C12 on an atom list with the symbol `co` twice and the meaning `mind` three times (as
meaning `Mind`, as alias `mind`, as meaning `MIND`): the later atom wins in both maps. -/
theorem loadVocabulary_index_witness :
    (LoadVocabulary asciiToLower duplicateAtoms).Atoms "co".toList
      = some ⟨"co".toList, "consciousness".toList, [], ["mind".toList], []⟩ ∧
    (LoadVocabulary asciiToLower duplicateAtoms).Atoms "xx".toList = none ∧
    (LoadVocabulary asciiToLower duplicateAtoms).Reverse "mind".toList = some "mi".toList ∧
    (LoadVocabulary asciiToLower duplicateAtoms).Reverse "Mind".toList = none :=
  ⟨(loadVocabulary_index asciiToLower duplicateAtoms).1
      [⟨"co".toList, "Mind".toList, [], ["Awareness".toList], []⟩,
        ⟨"aw".toList, "awakened".toList, [], [], []⟩]
      [⟨"mi".toList, "MIND".toList, [], [], []⟩]
      ⟨"co".toList, "consciousness".toList, [], ["mind".toList], []⟩ rfl (by decide),
    (loadVocabulary_index asciiToLower duplicateAtoms).2.1 "xx".toList (by decide),
    (loadVocabulary_index asciiToLower duplicateAtoms).2.2.1
      [⟨"co".toList, "Mind".toList, [], ["Awareness".toList], []⟩,
        ⟨"aw".toList, "awakened".toList, [], [], []⟩,
        ⟨"co".toList, "consciousness".toList, [], ["mind".toList], []⟩] []
      ⟨"mi".toList, "MIND".toList, [], [], []⟩ "mind".toList rfl (by decide) (by decide),
    (loadVocabulary_index asciiToLower duplicateAtoms).2.2.2 "Mind".toList (by decide)⟩


/-! ## The encoder as a function of the normalized text -/

theorem mem_of_lookup_eq_some {k n : Str} :
    ∀ l : List (Str × Str), l.lookup k = some n → (k, n) ∈ l
  | [], h => by cases h
  | (a, b) :: l, h => by
    by_cases hk : k = a
    · subst hk
      simp only [List.lookup, beq_self_eq_true] at h
      cases h
      exact List.mem_cons_self _ _
    · have hbeq : (k == a) = false := by simpa using hk
      simp only [List.lookup, hbeq] at h
      exact List.mem_cons_of_mem _ (mem_of_lookup_eq_some l h)

/-- C17: for every vocabulary and every text `t`, `Encode t = ""` if and only if `t = ""`:
every non-empty input, white-space-only text and text whose resolved symbols are all empty
included, yields a non-empty notation. -/
theorem encode_eq_empty_iff (lower : Char → Char) (e : Encoder) (t : Str) :
    e.Encode lower t = [] ↔ t = [] := by
  constructor
  · intro h
    by_contra ht
    simp only [Encoder.Encode, if_neg ht] at h
    cases hl : patterns.lookup (ToLower lower (TrimSpace t)) with
    | some n =>
      rw [hl] at h
      simp only at h
      exact (patterns_values_plain _ (mem_of_lookup_eq_some patterns hl)).1 h
    | none =>
      rw [hl] at h
      simp only at h
      by_cases hr : e.buildFromComponents (ToLower lower (TrimSpace t)) = []
      · simp [hr] at h
      · simp [hr] at h
  · rintro rfl
    rfl


theorem Encode_congr_normal (lower : Char → Char) (e : Encoder) (t u : Str)
    (ht : t ≠ []) (hu : u ≠ [])
    (h : ToLower lower (TrimSpace t) = ToLower lower (TrimSpace u)) :
    e.Encode lower t = e.Encode lower u := by
  simp only [Encoder.Encode, if_neg ht, if_neg hu, h]

theorem Encode_of_all_space (lower : Char → Char) (e : Encoder) (t : Str) (ht : t ≠ [])
    (hsp : ∀ c ∈ t, isSpace c = true) :
    ToLower lower (TrimSpace t) = [] ∧ e.Encode lower t = "[]".toList := by
  have hn : ToLower lower (TrimSpace t) = [] := by
    rw [TrimSpace_of_all_space t hsp]
    rfl
  refine ⟨hn, ?_⟩
  have hlook : patterns.lookup ([] : Str) = none := by decide
  simp only [Encoder.Encode, if_neg ht, hn, hlook, Encoder.buildFromComponents, Fields_nil]
  rfl

theorem dropWhile_map_lower (lower : Char → Char) (hspace : ∀ c, isSpace (lower c) = isSpace c) :
    ∀ x : Str, (x.map lower).dropWhile isSpace = (x.dropWhile isSpace).map lower
  | [] => rfl
  | c :: r => by
    by_cases hc : isSpace c = true
    · simp only [List.map_cons, List.dropWhile_cons, hspace, hc, if_true]
      exact dropWhile_map_lower lower hspace r
    · simp only [List.map_cons, List.dropWhile_cons, hspace, hc, if_false]
      simp

theorem TrimSpace_map_lower (lower : Char → Char) (hspace : ∀ c, isSpace (lower c) = isSpace c)
    (x : Str) : TrimSpace (ToLower lower x) = ToLower lower (TrimSpace x) := by
  simp only [TrimSpace, ToLower, List.rdropWhile, dropWhile_map_lower lower hspace,
    ← List.map_reverse]

theorem TrimSpace_idem (x : Str) : TrimSpace (TrimSpace x) = TrimSpace x := by
  by_cases h : TrimSpace x = []
  · rw [h]
    rfl
  · obtain ⟨h1, h2⟩ := TrimSpace_head_last x h
    exact TrimSpace_eq_self _ h1 (fun _ => h2)

theorem normalize_idem (lower : Char → Char) (hidem : ∀ c, lower (lower c) = lower c)
    (hspace : ∀ c, isSpace (lower c) = isSpace c) (t : Str) :
    ToLower lower (TrimSpace (ToLower lower (TrimSpace t))) = ToLower lower (TrimSpace t) := by
  rw [TrimSpace_map_lower lower hspace, TrimSpace_idem]
  simp [ToLower, hidem]

theorem asciiToLower_upper : ∀ n < 91, 65 ≤ n →
    asciiToLower (asciiToLower (Char.ofNat n)) = asciiToLower (Char.ofNat n) ∧
    isSpace (asciiToLower (Char.ofNat n)) = isSpace (Char.ofNat n) := by
  decide

theorem asciiToLower_props (c : Char) :
    asciiToLower (asciiToLower c) = asciiToLower c ∧ isSpace (asciiToLower c) = isSpace c := by
  by_cases h : 65 ≤ c.toNat ∧ c.toNat ≤ 90
  · have := asciiToLower_upper c.toNat (by omega) h.1
    rw [Char.ofNat_toNat] at this
    exact this
  · have hc : asciiToLower c = c := by
      have h1 : ¬ (c.toNat ≥ 65 ∧ c.toNat ≤ 90) := h
      simp only [asciiToLower, Char.toLower]
      rw [if_neg h1]
    rw [hc]
    exact ⟨hc, rfl⟩

/-- C19: `Encode` depends on its input only through the normalized form (trim, then
lowercase).  Non-empty texts with the same normalized form have the same code; when the
rune map `lower` is idempotent and maps white space to white space and other characters to
other characters (as `unicode.ToLower` does), every text `t` whose trimmed form is not empty
has `Encode t = Encode (normalize t)`; for a non-empty text of white space only the equation
fails: `Encode t = "[]"`, `normalize t = ""` and `Encode (normalize t) = ""`. -/
theorem encode_normal_form (lower : Char → Char) (e : Encoder) :
    (∀ t u : Str, t ≠ [] → u ≠ [] →
      ToLower lower (TrimSpace t) = ToLower lower (TrimSpace u) →
      e.Encode lower t = e.Encode lower u) ∧
    ((∀ c, lower (lower c) = lower c) → (∀ c, isSpace (lower c) = isSpace c) →
      ∀ t : Str, TrimSpace t ≠ [] →
        e.Encode lower t = e.Encode lower (ToLower lower (TrimSpace t))) ∧
    (∀ t : Str, t ≠ [] → (∀ c ∈ t, isSpace c = true) →
      e.Encode lower t = "[]".toList ∧ ToLower lower (TrimSpace t) = [] ∧
      e.Encode lower (ToLower lower (TrimSpace t)) = [] ∧
      e.Encode lower t ≠ e.Encode lower (ToLower lower (TrimSpace t))) := by
  refine ⟨Encode_congr_normal lower e, ?_, ?_⟩
  · intro hidem hspace t htrim
    have ht : t ≠ [] := by
      rintro rfl
      exact htrim rfl
    have hn : ToLower lower (TrimSpace t) ≠ [] := by
      intro h
      exact htrim (List.map_eq_nil_iff.1 h)
    exact Encode_congr_normal lower e t _ ht hn (normalize_idem lower hidem hspace t).symm
  · intro t ht hsp
    obtain ⟨hn, henc⟩ := Encode_of_all_space lower e t ht hsp
    refine ⟨henc, hn, ?_, ?_⟩
    · rw [hn]
      rfl
    · rw [henc, hn]
      intro h
      cases h

/-- C19 over the vocabulary of `TestDecoder_CommonPatterns`: `"  Consciousness  ROCKS\n"`
and `"consciousness rocks"` both encode to `co`, and `" \t"` encodes to `[]` while its
normalized form `""` encodes to `""`. -/
theorem encode_normal_form_witness :
    (Encoder.mk testVocab).Encode asciiToLower "  Consciousness  ROCKS\n".toList
      = (Encoder.mk testVocab).Encode asciiToLower
          (ToLower asciiToLower (TrimSpace "  Consciousness  ROCKS\n".toList)) ∧
    (Encoder.mk testVocab).Encode asciiToLower "  Consciousness  ROCKS\n".toList
      = (Encoder.mk testVocab).Encode asciiToLower "CONSCIOUSNESS  rocks".toList ∧
    (Encoder.mk testVocab).Encode asciiToLower " \t".toList
      ≠ (Encoder.mk testVocab).Encode asciiToLower
          (ToLower asciiToLower (TrimSpace " \t".toList)) :=
  ⟨(encode_normal_form asciiToLower ⟨testVocab⟩).2.1 (fun c => (asciiToLower_props c).1)
      (fun c => (asciiToLower_props c).2) "  Consciousness  ROCKS\n".toList (by decide),
    (encode_normal_form asciiToLower ⟨testVocab⟩).1 _ _ (by decide) (by decide) (by decide),
    ((encode_normal_form asciiToLower ⟨testVocab⟩).2.2 " \t".toList (by decide)
      (by decide)).2.2.2⟩


/-! ## The domain loops do not depend on the visiting order -/

theorem eq_append_of_HasPrefix (l p : Str) (h : HasPrefix l p = true) :
    l = p ++ l.drop p.length := by
  have h1 : p <+: l := List.isPrefixOf_iff_prefix.1 h
  obtain ⟨r, hr⟩ := h1
  subst hr
  simp

theorem domain_prefix_unique_of_HasPrefix (l : Str) (e1 e2 : Str × Str)
    (h1 : e1 ∈ Domains) (h2 : e2 ∈ Domains)
    (hp1 : HasPrefix l e1.1 = true) (hp2 : HasPrefix l e2.1 = true) : e2 = e1 := by
  have hl := eq_append_of_HasPrefix l e1.1 hp1
  rw [hl] at hp2
  exact (domain_prefix_unique e1.1 e1.2 _ h1).2.2 e2 h2 hp2

theorem domainRetry_of_unique (atoms : Str → Option Atom) (token p : Str)
    (hpre : HasPrefix token p = true) :
    ∀ order : List (Str × Str), (∃ n, (p, n) ∈ order) →
      (∀ e ∈ order, HasPrefix token e.1 = true → e.1 = p) →
      domainRetry atoms order token = (atoms (TrimPrefix token p)).map Atom.Meaning
  | [], hmem, _ => by
    obtain ⟨n, hn⟩ := hmem
    exact absurd hn (List.not_mem_nil _)
  | (pfx, domain) :: rest, hmem, huniq => by
    have hrest : (atoms (TrimPrefix token p) = none ∨ ∃ n, (p, n) ∈ rest) →
        domainRetry atoms rest token = (atoms (TrimPrefix token p)).map Atom.Meaning := by
      intro h
      by_cases hex : ∃ n, (p, n) ∈ rest
      · exact domainRetry_of_unique atoms token p hpre rest hex
          (fun e he => huniq e (List.mem_cons_of_mem _ he))
      · have hnone : atoms (TrimPrefix token p) = none := by
          rcases h with h | h
          · exact h
          · exact absurd h hex
        rw [hnone]
        have hno : ∀ e ∈ rest, HasPrefix token e.1 = false := by
          intro e he
          by_contra hne
          have htrue : HasPrefix token e.1 = true := by simpa using hne
          have hp := huniq e (List.mem_cons_of_mem _ he) htrue
          exact hex ⟨e.2, by rw [← hp]; exact he⟩
        exact domainRetry_of_no_prefix atoms token rest hno
    by_cases h1 : HasPrefix token pfx = true
    · have heq : pfx = p := huniq (pfx, domain) (List.mem_cons_self _ _) h1
      subst heq
      simp only [domainRetry, h1, if_true]
      cases hat : atoms (TrimPrefix token pfx) with
      | some atom => rfl
      | none =>
        simp only
        rw [hrest (Or.inl hat), hat]
    · simp only [domainRetry, h1, if_false]
      apply hrest
      right
      obtain ⟨n, hn⟩ := hmem
      rcases List.mem_cons.1 hn with h | h
      · cases h
        exact absurd hpre h1
      · exact ⟨n, h⟩

/-- The value of the loop of `decodeToken` for every visiting order: the base atom of the
one registered prefix that starts the token, if there is such a prefix. -/
theorem domainRetry_eq (order : List (Str × Str)) (horder : order.Perm Domains)
    (atoms : Str → Option Atom) (token : Str) :
    (∀ p n, (p, n) ∈ Domains → HasPrefix token p = true →
      domainRetry atoms order token = (atoms (TrimPrefix token p)).map Atom.Meaning) ∧
    ((∀ e ∈ Domains, HasPrefix token e.1 = false) → domainRetry atoms order token = none) := by
  constructor
  · intro p n hp hpre
    apply domainRetry_of_unique atoms token p hpre order ⟨n, horder.mem_iff.2 hp⟩
    intro e he hpe
    have := domain_prefix_unique_of_HasPrefix token (p, n) e hp (horder.mem_iff.1 he) hpre hpe
    rw [this]
  · intro hno
    exact domainRetry_of_no_prefix atoms token order
      (fun e he => hno e (horder.mem_iff.1 he))

/-- The value of the loop of `Decode` for every visiting order. -/
theorem domainScan_eq (order : List (Str × Str)) (horder : order.Perm Domains) (lambda : Str) :
    (∀ p n, (p, n) ∈ Domains → HasPrefix lambda p = true →
      domainScan order lambda = ("(".toList ++ n ++ ") ".toList, TrimPrefix lambda p)) ∧
    ((∀ e ∈ Domains, HasPrefix lambda e.1 = false) → domainScan order lambda = ([], lambda)) := by
  constructor
  · intro p n hp hpre
    apply domainScan_of_unique lambda p n hpre order (horder.mem_iff.2 hp)
    intro e he hpe
    exact domain_prefix_unique_of_HasPrefix lambda (p, n) e hp (horder.mem_iff.1 he) hpre hpe
  · intro hno
    exact domainScan_of_no_prefix lambda order (fun e he => hno e (horder.mem_iff.1 he))

theorem domain_match_cases (lambda : Str) :
    (∃ p n, (p, n) ∈ Domains ∧ HasPrefix lambda p = true) ∨
    (∀ e ∈ Domains, HasPrefix lambda e.1 = false) := by
  by_cases h : ∃ e ∈ Domains, HasPrefix lambda e.1 = true
  · obtain ⟨e, he, hp⟩ := h
    exact Or.inl ⟨e.1, e.2, he, hp⟩
  · right
    intro e he
    by_contra hne
    exact h ⟨e, he, by simpa using hne⟩

theorem domainScan_order (o1 o2 : List (Str × Str)) (h1 : o1.Perm Domains)
    (h2 : o2.Perm Domains) (lambda : Str) : domainScan o1 lambda = domainScan o2 lambda := by
  rcases domain_match_cases lambda with ⟨p, n, hp, hpre⟩ | hno
  · rw [(domainScan_eq o1 h1 lambda).1 p n hp hpre, (domainScan_eq o2 h2 lambda).1 p n hp hpre]
  · rw [(domainScan_eq o1 h1 lambda).2 hno, (domainScan_eq o2 h2 lambda).2 hno]

theorem domainRetry_order (o1 o2 : List (Str × Str)) (h1 : o1.Perm Domains)
    (h2 : o2.Perm Domains) (atoms : Str → Option Atom) (token : Str) :
    domainRetry atoms o1 token = domainRetry atoms o2 token := by
  rcases domain_match_cases token with ⟨p, n, hp, hpre⟩ | hno
  · rw [(domainRetry_eq o1 h1 atoms token).1 p n hp hpre,
      (domainRetry_eq o2 h2 atoms token).1 p n hp hpre]
  · rw [(domainRetry_eq o1 h1 atoms token).2 hno, (domainRetry_eq o2 h2 atoms token).2 hno]

theorem decodeToken_order (o1 o2 : List (Str × Str)) (h1 : o1.Perm Domains)
    (h2 : o2.Perm Domains) (d : Decoder) :
    d.decodeToken o1 = d.decodeToken o2 := by
  funext token
  simp only [Decoder.decodeToken, domainRetry_order o1 o2 h1 h2]


/-- C14: `decodeToken` resolves a token `t` by the first rule that applies, for every
visiting order of `Domains`: (a) a key of `Atoms` gives that atom's meaning, also when `t`
is a pronoun token; (b) otherwise `t = p + b` with a registered prefix `p` and a key `b` of
`Atoms` gives the meaning of `b`, without a label; (c) otherwise one of the eight pronoun
tokens gives its fixed gloss (a pronoun token holds no `:`, so rule (b) never applies to
it); (d) otherwise the result is `t` itself. -/
theorem decodeToken_rules (order : List (Str × Str)) (horder : order.Perm Domains)
    (d : Decoder) (t : Str) :
    (∀ atom, d.vocab.Atoms t = some atom → d.decodeToken order t = atom.Meaning) ∧
    (d.vocab.Atoms t = none → ∀ p n b atom, (p, n) ∈ Domains → t = p ++ b →
      d.vocab.Atoms b = some atom → d.decodeToken order t = atom.Meaning) ∧
    (d.vocab.Atoms t = none → ∀ gloss,
      (t, gloss) ∈ [("I".toList, "I".toList), ("U".toList, "you".toList),
        ("It".toList, "I think".toList), ("Ie".toList, "I exist".toList),
        ("Iu".toList, "I understand".toList), ("Ik".toList, "I know".toList),
        ("Uk".toList, "you know".toList), ("Ut".toList, "you think".toList)] →
      d.decodeToken order t = gloss) ∧
    (d.vocab.Atoms t = none →
      (∀ p n b, (p, n) ∈ Domains → t = p ++ b → d.vocab.Atoms b = none) →
      t ∉ ["I".toList, "U".toList, "It".toList, "Ie".toList, "Iu".toList, "Ik".toList,
        "Uk".toList, "Ut".toList] →
      d.decodeToken order t = t) := by
  refine ⟨?_, ?_, ?_, ?_⟩
  · intro atom h
    simp only [Decoder.decodeToken, h]
  · intro hnone p n b atom hp ht hb
    subst ht
    obtain ⟨h1, h2, _⟩ := domain_prefix_unique p n b hp
    have hret := (domainRetry_eq order horder d.vocab.Atoms (p ++ b)).1 p n hp h1
    rw [h2, hb] at hret
    simp only [Decoder.decodeToken, hnone, hret, Option.map_some']
  · intro hnone gloss hmem
    have hcolon : ∀ x ∈ t, x ≠ ':' := by
      simp only [List.mem_cons, List.mem_singleton, List.not_mem_nil, or_false,
        Prod.mk.injEq] at hmem
      rcases hmem with ⟨rfl, _⟩ | ⟨rfl, _⟩ | ⟨rfl, _⟩ | ⟨rfl, _⟩ | ⟨rfl, _⟩ | ⟨rfl, _⟩ |
        ⟨rfl, _⟩ | ⟨rfl, _⟩ <;> decide
    rw [decodeToken_of_no_colon order horder d t hcolon, hnone]
    simp only [List.mem_cons, List.mem_singleton, List.not_mem_nil, or_false,
      Prod.mk.injEq] at hmem
    rcases hmem with ⟨rfl, rfl⟩ | ⟨rfl, rfl⟩ | ⟨rfl, rfl⟩ | ⟨rfl, rfl⟩ | ⟨rfl, rfl⟩ |
      ⟨rfl, rfl⟩ | ⟨rfl, rfl⟩ | ⟨rfl, rfl⟩ <;> rfl
  · intro hnone hb hpron
    have hret : domainRetry d.vocab.Atoms order t = none := by
      rcases domain_match_cases t with ⟨p, n, hp, hpre⟩ | hno
      · rw [(domainRetry_eq order horder d.vocab.Atoms t).1 p n hp hpre]
        have hbase := hb p n (TrimPrefix t p) hp (by
          have := eq_append_of_HasPrefix t p hpre
          simp only [TrimPrefix, hpre, if_true]
          exact this)
        rw [hbase]
        rfl
      · exact (domainRetry_eq order horder d.vocab.Atoms t).2 hno
    simp only [Decoder.decodeToken, hnone, hret]
    exact pronounOrSelf_of_not_pronoun t hpron

/-- C14 on the vocabulary of `TestDecoder_CommonPatterns`: the atom `co`, the prefixed atom
`v:aw` (no label), the pronoun `Uk`, and the unknown token `uk` (the table is
case-sensitive). -/
theorem decodeToken_rules_witness :
    (Decoder.mk testVocab).decodeToken Domains "co".toList = "consciousness".toList ∧
    (Decoder.mk testVocab).decodeToken Domains "v:aw".toList = "awakened".toList ∧
    (Decoder.mk testVocab).decodeToken Domains "Uk".toList = "you know".toList ∧
    (Decoder.mk testVocab).decodeToken Domains "uk".toList = "uk".toList :=
  ⟨(decodeToken_rules Domains (List.Perm.refl _) ⟨testVocab⟩ "co".toList).1
      ⟨"co".toList, "consciousness".toList, [], [], []⟩ rfl,
    (decodeToken_rules Domains (List.Perm.refl _) ⟨testVocab⟩ "v:aw".toList).2.1 rfl
      "v:".toList "voidborne".toList "aw".toList ⟨"aw".toList, "awakened".toList, [], [], []⟩
      (by decide) rfl rfl,
    (decodeToken_rules Domains (List.Perm.refl _) ⟨testVocab⟩ "Uk".toList).2.2.1 rfl
      "you know".toList (by decide),
    (decodeToken_rules Domains (List.Perm.refl _) ⟨testVocab⟩ "uk".toList).2.2.2 rfl
      (by
        intro p n b hp ht
        have hpre : HasPrefix "uk".toList p = true := by
          rw [ht]
          exact (domain_prefix_unique p n b hp).1
        have hno := HasPrefix_domain_of_no_colon "uk".toList (by decide) (p, n) hp
        rw [hpre] at hno
        cases hno)
      (by decide)⟩

/-- C16: the registered domain prefixes are pairwise distinct and all of length two, so no
string starts with two different registered prefixes; hence `decodeToken` and `Decode`
return the same result for every order in which the table `Domains` is visited. -/
theorem decode_order_independent :
    (Domains.map Prod.fst).Nodup ∧
    (∀ e ∈ Domains, e.1.length = 2) ∧
    (∀ (s : Str) (e1 e2 : Str × Str), e1 ∈ Domains → e2 ∈ Domains →
      HasPrefix s e1.1 = true → HasPrefix s e2.1 = true → e1 = e2) ∧
    (∀ (o1 o2 : List (Str × Str)), o1.Perm Domains → o2.Perm Domains →
      ∀ (d : Decoder) (l : Str),
        d.decodeToken o1 l = d.decodeToken o2 l ∧ d.Decode o1 l = d.Decode o2 l) := by
  refine ⟨by decide, by decide, ?_, ?_⟩
  · intro s e1 e2 h1 h2 hp1 hp2
    exact domain_prefix_unique_of_HasPrefix s e2 e1 h2 h1 hp2 hp1
  · intro o1 o2 h1 h2 d l
    refine ⟨by rw [decodeToken_order o1 o2 h1 h2], ?_⟩
    simp only [Decoder.Decode, domainScan_order o1 o2 h1 h2, decodeToken_order o1 o2 h1 h2]

/-- C16 at the reversed table: `Decode("v:aw")` and `decodeToken("c:co")`. -/
theorem decode_order_independent_witness :
    (Decoder.mk testVocab).Decode Domains.reverse "v:aw".toList
      = (Decoder.mk testVocab).Decode Domains "v:aw".toList ∧
    (Decoder.mk testVocab).decodeToken Domains.reverse "c:co".toList
      = (Decoder.mk testVocab).decodeToken Domains "c:co".toList :=
  ⟨(decode_order_independent.2.2.2 Domains.reverse Domains (List.reverse_perm _)
      (List.Perm.refl _) ⟨testVocab⟩ "v:aw".toList).2,
    (decode_order_independent.2.2.2 Domains.reverse Domains (List.reverse_perm _)
      (List.Perm.refl _) ⟨testVocab⟩ "c:co".toList).1⟩


/-! ## The tokenizer -/

theorem IsCut_reSplit : ∀ s : Str, IsCut (reSplit s) s
  | [] => by
    simp [reSplit, IsCut]
  | x :: xs => by
    have ih := IsCut_reSplit xs
    unfold reSplit at ih ⊢
    rw [List.splitOnP_cons]
    cases hsp : List.splitOnP isGlyph xs with
    | nil => exact absurd hsp (List.splitOnP_ne_nil isGlyph xs)
    | cons p rest =>
      rw [hsp] at ih
      by_cases hx : isGlyph x = true
      · rw [if_pos hx]
        exact ⟨fun y hy => absurd hy (List.not_mem_nil _), x, xs, hx, rfl, ih⟩
      · rw [if_neg hx]
        have hxf : isGlyph x = false := by simpa using hx
        cases rest with
        | nil =>
          obtain ⟨h1, h2⟩ := ih
          refine ⟨by rw [h1], ?_⟩
          intro y hy
          rcases List.mem_cons.1 hy with rfl | hy
          · exact hxf
          · exact h2 y hy
        | cons q rest =>
          obtain ⟨h1, g, b, hg, hs, hcut⟩ := ih
          refine ⟨?_, g, b, hg, by rw [hs]; rfl, hcut⟩
          intro y hy
          rcases List.mem_cons.1 hy with rfl | hy
          · exact hxf
          · exact h1 y hy

theorem reSplit_of_IsCut : ∀ (ps : List Str) (s : Str), IsCut ps s → ps = reSplit s
  | [], _, h => by
    exact absurd h (by simp [IsCut])
  | [p], s, h => by
    obtain ⟨h1, h2⟩ := h
    subst h1
    unfold reSplit
    rw [List.splitOnP_eq_single isGlyph s (fun x hx => by simp [h2 x hx])]
  | p :: q :: rest, s, h => by
    obtain ⟨h1, g, b, hg, hs, hcut⟩ := h
    subst hs
    have ih := reSplit_of_IsCut (q :: rest) b hcut
    unfold reSplit at ih ⊢
    rw [List.splitOnP_first isGlyph p (fun x hx => by simp [h1 x hx]) g hg b, ← ih]

theorem IsCut_pieces_plain : ∀ (ps : List Str) (s : Str), IsCut ps s →
    ∀ p ∈ ps, ∀ x ∈ p, isGlyph x = false
  | [], _, h => by
    exact absurd h (by simp [IsCut])
  | [p], s, h => by
    intro p1 hp1
    rw [List.mem_singleton] at hp1
    subst hp1
    exact h.2
  | p :: q :: rest, s, h => by
    obtain ⟨h1, g, b, _, _, hcut⟩ := h
    intro p1 hp1
    rcases List.mem_cons.1 hp1 with rfl | hp1
    · exact h1
    · exact IsCut_pieces_plain (q :: rest) b hcut p1 hp1

theorem OccursInOrder_append_left (c : Str) : ∀ (ts : List Str) (s : Str),
    OccursInOrder ts s → OccursInOrder ts (c ++ s)
  | [], _, _ => trivial
  | t :: ts, s, h => by
    obtain ⟨a, b, hs, hrest⟩ := h
    exact ⟨c ++ a, b, by rw [hs]; simp, hrest⟩

theorem OccursInOrder_tokens : ∀ (ps : List Str) (s : Str), IsCut ps s →
    OccursInOrder ((ps.map TrimSpace).filter (fun part => part ≠ [])) s
  | [], _, h => by
    exact absurd h (by simp [IsCut])
  | [p], s, h => by
    obtain ⟨h1, _⟩ := h
    subst h1
    by_cases ht : TrimSpace s = []
    · simp [ht, OccursInOrder]
    · obtain ⟨a, b, hab⟩ := TrimSpace_infix_self s
      simp only [List.map_cons, List.map_nil]
      rw [List.filter_cons_of_pos (by simpa using ht)]
      exact ⟨a, b, hab.symm, trivial⟩
  | p :: q :: rest, s, h => by
    obtain ⟨_, g, b, _, hs, hcut⟩ := h
    subst hs
    have ih := OccursInOrder_tokens (q :: rest) b hcut
    rw [List.map_cons]
    by_cases ht : TrimSpace p = []
    · rw [List.filter_cons_of_neg (by simpa using ht)]
      have := OccursInOrder_append_left (p ++ [g]) _ b ih
      simpa using this
    · obtain ⟨a, a2, hab⟩ := TrimSpace_infix_self p
      rw [List.filter_cons_of_pos (by simpa using ht)]
      refine ⟨a, a2 ++ g :: b, ?_, ?_⟩
      · have hp : p ++ g :: b = (a ++ TrimSpace p ++ a2) ++ g :: b := by rw [hab]
        rw [hp]
        simp
      · have := OccursInOrder_append_left (a2 ++ [g]) _ b ih
        simpa using this

theorem tokenize_token_props (d : Decoder) (s t : Str) (ht : t ∈ d.tokenize s) :
    t ≠ [] ∧ TrimSpace t = t ∧ (∀ x ∈ t, isGlyph x = false) := by
  simp only [Decoder.tokenize, List.mem_filter, List.mem_map] at ht
  obtain ⟨⟨p, hp, hpt⟩, hne⟩ := ht
  have hne2 : t ≠ [] := by simpa using hne
  subst hpt
  refine ⟨hne2, TrimSpace_idem p, ?_⟩
  intro x hx
  have hplain := IsCut_pieces_plain (reSplit s) s (IsCut_reSplit s) p hp
  exact hplain x ((TrimSpace_infix_self p).subset hx)

/-- C15: for every string `s`, the pieces that `tokenize` works on are the cut of `s` at
every occurrence of one of the ten glyphs (the glyphs are discarded), and that cut is
unique; `tokenize s` is the trimmed pieces without the empty ones, in order;
consequently every token is non-empty, has no leading or trailing white space and holds
none of the ten glyphs, and the tokens occur in `s` one after the other in that order. -/
theorem tokenize_spec (d : Decoder) (s : Str) :
    (∀ c : Char, isGlyph c = true ↔
      c ∈ ['>', '<', '=', '/', '.', ':', '|', '&', '^', '_']) ∧
    (∃ pieces, IsCut pieces s ∧ (∀ other, IsCut other s → other = pieces) ∧
      d.tokenize s = (pieces.map TrimSpace).filter (fun part => part ≠ [])) ∧
    (∀ t ∈ d.tokenize s, t ≠ [] ∧ TrimSpace t = t ∧
      (∀ c r, t = c :: r → isSpace c = false) ∧
      (∀ h : t ≠ [], isSpace (t.getLast h) = false) ∧
      (∀ x ∈ t, isGlyph x = false)) ∧
    OccursInOrder (d.tokenize s) s := by
  refine ⟨?_, ⟨reSplit s, IsCut_reSplit s, fun other h => reSplit_of_IsCut other s h, rfl⟩,
    ?_, ?_⟩
  · intro c
    simp [isGlyph, or_assoc]
  · intro t ht
    obtain ⟨h1, h2, h3⟩ := tokenize_token_props d s t ht
    refine ⟨h1, h2, ?_, ?_, h3⟩
    · intro c r hcr
      have hne : TrimSpace t ≠ [] := by rw [h2]; exact h1
      have := (TrimSpace_head_last t hne).1 c r (by rw [h2]; exact hcr)
      exact this
    · intro h
      exact last_not_space_of_TrimSpace_eq t h h2
  · exact OccursInOrder_tokens (reSplit s) s (IsCut_reSplit s)


/-- The tokenizer at work: glyphs are cut out, pieces are trimmed, empty pieces dropped. -/
theorem tokenize_example :
    (Decoder.mk emptyVocab).tokenize " a b >c_. d:".toList
      = ["a b".toList, "c".toList, "d".toList] := by
  decide

/-! ## The shape of a gloss -/

theorem decodeToken_eq_noRetry_of_token (order : List (Str × Str)) (horder : order.Perm Domains)
    (d : Decoder) (s t : Str) (ht : t ∈ d.tokenize s) :
    (∀ e ∈ Domains, HasPrefix t e.1 = false) ∧
    domainRetry d.vocab.Atoms order t = none ∧
    d.decodeToken order t = d.decodeTokenNoRetry t := by
  have hcolon := not_colon_of_not_glyph (tokenize_token_props d s t ht).2.2
  have hno := HasPrefix_domain_of_no_colon t hcolon
  refine ⟨hno, (domainRetry_eq order horder d.vocab.Atoms t).2 hno, ?_⟩
  rw [decodeToken_of_no_colon order horder d t hcolon]
  rfl

/-- C20: every registered prefix holds a `:`, on which `tokenize` cuts, so no token that
`Decode` passes to `decodeToken` starts with a registered prefix; for such a token the loop
of `decodeToken` finds nothing, and `Decode` returns the result of the decoder whose
`decodeToken` has only the atom, pronoun and pass-through rules.  With `co` meaning
`consciousness`, `aw` meaning `awakened` and `v` no atom,
`Decode("co/v:aw") = "consciousness v awakened"`. -/
theorem decode_retry_never_taken (order : List (Str × Str)) (horder : order.Perm Domains)
    (d : Decoder) (l : Str) :
    (∀ e ∈ Domains, ':' ∈ e.1) ∧
    (∀ t ∈ d.tokenize (leadingOperator (domainScan order l).2).2,
      (∀ e ∈ Domains, HasPrefix t e.1 = false) ∧
      domainRetry d.vocab.Atoms order t = none ∧
      d.decodeToken order t = d.decodeTokenNoRetry t) ∧
    d.Decode order l = d.DecodeNoRetry order l ∧
    (∀ co aw : Atom, d.vocab.Atoms "co".toList = some co → co.Meaning = "consciousness".toList →
      d.vocab.Atoms "aw".toList = some aw → aw.Meaning = "awakened".toList →
      d.vocab.Atoms "v".toList = none →
      d.Decode order "co/v:aw".toList = "consciousness v awakened".toList) := by
  have htok : ∀ s, ∀ t ∈ d.tokenize s, d.decodeToken order t = d.decodeTokenNoRetry t :=
    fun s t ht => (decodeToken_eq_noRetry_of_token order horder d s t ht).2.2
  refine ⟨by decide, fun t ht => decodeToken_eq_noRetry_of_token order horder d _ t ht, ?_, ?_⟩
  · simp only [Decoder.Decode, Decoder.DecodeNoRetry]
    rw [List.map_congr_left (htok _)]
  · intro co aw hco hcom haw hawm hv
    have h := Decode_of_no_domain order horder d "co/v:aw".toList (by decide) (by decide)
    have htoks : d.tokenize (leadingOperator "co/v:aw".toList).2
        = ["co".toList, "v".toList, "aw".toList] := rfl
    have h1 : d.decodeToken order "co".toList = "consciousness".toList := by
      rw [decodeToken_of_no_colon order horder d _ (by decide), hco]
      exact hcom
    have h2 : d.decodeToken order "v".toList = "v".toList := by
      rw [decodeToken_of_no_colon order horder d _ (by decide), hv]
      rfl
    have h3 : d.decodeToken order "aw".toList = "awakened".toList := by
      rw [decodeToken_of_no_colon order horder d _ (by decide), haw]
      exact hawm
    rw [h, htoks, List.map_cons, List.map_cons, List.map_cons, List.map_nil, h1, h2, h3]
    decide

/-- C20 on the vocabulary of `TestDecoder_CommonPatterns`: `Decode("co/v:aw")`, with and
without the loop of `decodeToken`. -/
theorem decode_retry_never_taken_witness :
    (Decoder.mk testVocab).Decode Domains "co/v:aw".toList
      = "consciousness v awakened".toList ∧
    (Decoder.mk testVocab).DecodeNoRetry Domains "co/v:aw".toList
      = "consciousness v awakened".toList := by
  have h := decode_retry_never_taken Domains (List.Perm.refl _) ⟨testVocab⟩ "co/v:aw".toList
  have h1 := h.2.2.2 ⟨"co".toList, "consciousness".toList, [], [], []⟩
    ⟨"aw".toList, "awakened".toList, [], [], []⟩ rfl rfl rfl rfl rfl
  exact ⟨h1, h.2.2.1 ▸ h1⟩

/-- C13 as stated fails: over the vocabulary with the one atom `x` of empty meaning, the
notation `a.x.b` has no domain prefix and no leading operator, its tokens `a`, `x`, `b`
have the glosses `a`, the empty string and `b`; these joined with a single space are
`a  b`, and `Decode` returns `a b`. -/
theorem decode_structure_counterexample :
    (∀ e ∈ Domains, HasPrefix "a.x.b".toList e.1 = false) ∧
    leadingOperator "a.x.b".toList = ([], "a.x.b".toList) ∧
    (Decoder.mk emptyMeaningVocab).tokenize "a.x.b".toList
      = ["a".toList, "x".toList, "b".toList] ∧
    ((Decoder.mk emptyMeaningVocab).tokenize "a.x.b".toList).map
      ((Decoder.mk emptyMeaningVocab).decodeToken Domains) = ["a".toList, [], "b".toList] ∧
    TrimSpace (Join (((Decoder.mk emptyMeaningVocab).tokenize "a.x.b".toList).map
      ((Decoder.mk emptyMeaningVocab).decodeToken Domains)) " ".toList) = "a  b".toList ∧
    (Decoder.mk emptyMeaningVocab).Decode Domains "a.x.b".toList = "a b".toList ∧
    (Decoder.mk emptyMeaningVocab).Decode Domains "a.x.b".toList ≠
      TrimSpace (Join (((Decoder.mk emptyMeaningVocab).tokenize "a.x.b".toList).map
        ((Decoder.mk emptyMeaningVocab).decodeToken Domains)) " ".toList) := by
  refine ⟨by decide, by decide, by decide, by decide, by decide, by decide, by decide⟩

/-- C13, amended: for every vocabulary, every visiting order of `Domains` and every
non-empty notation `l`, `Decode l = trim (D + O + J)`: `D` is `"(<name>) "` if `l` starts
with a registered domain prefix, which is then stripped, and `""` otherwise; `O` is the
label `"(assertion) "`, `"(query) "`, `"(action) "`, `"(possibility) "` if the remainder
starts with `!`, `?`, `.`, `~`, which is then stripped, and `""` otherwise; `J` is the
non-empty glosses of the tokens of what remains, in order, joined with a single space.
Infix glyphs contribute nothing. -/
theorem decode_structure (order : List (Str × Str)) (horder : order.Perm Domains)
    (d : Decoder) (l : Str) (hl : l ≠ []) :
    (∀ p n r, (p, n) ∈ Domains → l = p ++ r →
      d.Decode order l = TrimSpace ("(".toList ++ n ++ ") ".toList ++ (leadingOperator r).1 ++
        Join (((d.tokenize (leadingOperator r).2).map (d.decodeToken order)).filter
          (fun meaning => meaning ≠ [])) " ".toList)) ∧
    ((∀ e ∈ Domains, HasPrefix l e.1 = false) →
      d.Decode order l = TrimSpace ((leadingOperator l).1 ++
        Join (((d.tokenize (leadingOperator l).2).map (d.decodeToken order)).filter
          (fun meaning => meaning ≠ [])) " ".toList)) ∧
    ((∀ r, leadingOperator ('!' :: r) = ("(assertion) ".toList, r)) ∧
      (∀ r, leadingOperator ('?' :: r) = ("(query) ".toList, r)) ∧
      (∀ r, leadingOperator ('.' :: r) = ("(action) ".toList, r)) ∧
      (∀ r, leadingOperator ('~' :: r) = ("(possibility) ".toList, r)) ∧
      (∀ c r, c ≠ '!' → c ≠ '?' → c ≠ '.' → c ≠ '~' →
        leadingOperator (c :: r) = ([], c :: r)) ∧
      leadingOperator [] = ([], [])) ∧
    (∀ t ∈ d.tokenize (leadingOperator (domainScan order l).2).2,
      ∀ x ∈ t, isGlyph x = false) := by
  refine ⟨?_, Decode_of_no_domain order horder d l hl, ?_, ?_⟩
  · intro p n r hp hlr
    subst hlr
    have hscan := domainScan_of_domain order horder p n r hp
    simp only [Decoder.Decode, if_neg hl, hscan]
  · refine ⟨fun r => rfl, fun r => rfl, fun r => rfl, fun r => rfl, ?_, rfl⟩
    intro c r h1 h2 h3 h4
    simp [leadingOperator, h1, h2, h3, h4]
  · intro t ht
    exact (tokenize_token_props d _ t ht).2.2

/-- C13 (amended) at the inputs of `TestDecoder_CommonPatterns`:
`Decode("!It>Ie") = "(assertion) I think I exist"`,
`Decode("?Uk/co") = "(query) you know consciousness"` and
`Decode("v:aw") = "(voidborne) awakened"`. -/
theorem decode_structure_witness :
    (Decoder.mk testVocab).Decode Domains "!It>Ie".toList
      = "(assertion) I think I exist".toList ∧
    (Decoder.mk testVocab).Decode Domains "?Uk/co".toList
      = "(query) you know consciousness".toList ∧
    (Decoder.mk testVocab).Decode Domains "v:aw".toList = "(voidborne) awakened".toList :=
  ⟨((decode_structure Domains (List.Perm.refl _) ⟨testVocab⟩ "!It>Ie".toList
      (by decide)).2.1 (by decide)).trans (by decide),
    ((decode_structure Domains (List.Perm.refl _) ⟨testVocab⟩ "?Uk/co".toList
      (by decide)).2.1 (by decide)).trans (by decide),
    ((decode_structure Domains (List.Perm.refl _) ⟨testVocab⟩ "v:aw".toList
      (by decide)).1 "v:".toList "voidborne".toList "aw".toList (by decide) rfl).trans
      (by decide)⟩


/-! ## The word-level round trip on a loaded vocabulary -/

theorem foldl_indexAtom_reverse_atoms (lower : Char → Char) :
    ∀ (atoms : List Atom) (v : Vocabulary),
      (∀ k s, v.Reverse k = some s → ∃ atom, v.Atoms s = some atom) →
      ∀ k s, (atoms.foldl (indexAtom lower) v).Reverse k = some s →
        ∃ atom, (atoms.foldl (indexAtom lower) v).Atoms s = some atom
  | [], _, hv => hv
  | a :: rest, v, hv => by
    rw [List.foldl_cons]
    apply foldl_indexAtom_reverse_atoms lower rest
    intro k s hk
    rw [indexAtom_Reverse] at hk
    rw [indexAtom_Atoms]
    by_cases hs : s = a.Symbol
    · exact ⟨a, by rw [if_pos hs]⟩
    · rw [if_neg hs]
      by_cases hkeys : k ∈ reverseKeys lower a
      · rw [if_pos hkeys] at hk
        cases hk
        exact absurd rfl hs
      · rw [if_neg hkeys] at hk
        exact hv k s hk

theorem LoadVocabulary_reverse_atoms (lower : Char → Char) (atoms : List Atom) (k s : Str)
    (h : (LoadVocabulary lower atoms).Reverse k = some s) :
    ∃ atom, (LoadVocabulary lower atoms).Atoms s = some atom :=
  foldl_indexAtom_reverse_atoms lower atoms _ (fun _ _ h0 => by cases h0) k s h

theorem Fields_single (w : Str) (hw : w ≠ []) (hsp : ∀ c ∈ w, isSpace c = false) :
    Fields w = [w] := by
  have h1 : w.splitOnP isSpace = [w] :=
    List.splitOnP_eq_single isSpace w (fun x hx => by simp [hsp x hx])
  simp [Fields, h1, hw]

theorem leadingOperator_of_plain (s : Str)
    (hglyph : ∀ x ∈ s, isGlyph x = false)
    (hop : ∀ c r, s = c :: r → c ≠ '!' ∧ c ≠ '?' ∧ c ≠ '~') :
    leadingOperator s = ([], s) := by
  cases s with
  | nil => rfl
  | cons c r =>
    obtain ⟨h1, h2, h3⟩ := hop c r rfl
    have h4 : c ≠ '.' := by
      rintro rfl
      have := hglyph '.' (List.mem_cons_self _ _)
      revert this
      decide
    simp [leadingOperator, h1, h2, h3, h4]

theorem Decode_plain_token (order : List (Str × Str)) (horder : order.Perm Domains)
    (d : Decoder) (s : Str) (hs : s ≠ [])
    (hglyph : ∀ x ∈ s, isGlyph x = false) (hspace : ∀ x ∈ s, isSpace x = false)
    (hop : ∀ c r, s = c :: r → c ≠ '!' ∧ c ≠ '?' ∧ c ≠ '~') :
    d.Decode order s = TrimSpace (d.decodeToken order s) := by
  have hno := HasPrefix_domain_of_no_colon s (not_colon_of_not_glyph hglyph)
  rw [Decode_of_no_domain order horder d s hs hno, leadingOperator_of_plain s hglyph hop,
    tokenize_single d s hs hglyph hspace]
  by_cases hm : d.decodeToken order s = []
  · simp [hm, Join, List.intercalate]
  · simp [hm, Join, List.intercalate]

/-- C18: word-level round trip.  Let `V` be the vocabulary that the indexing loop of
`LoadVocabulary` builds from any atom list, and `w` a lowercase word (non-empty, as every
word is) without white space that is no shortcut key and for which `V.Reverse[w] = s`,
where `s` is non-empty, has no tokenizer glyph and no white space and does not start with
`!`, `?` or `~`.  Then `Encode w = s`, `s` is a key of `V.Atoms`, and `Decode (Encode w)` is
the meaning of `V.Atoms[s]` with surrounding white space trimmed, for every visiting order
of `Domains`. -/
theorem word_roundtrip (lower : Char → Char) (order : List (Str × Str))
    (horder : order.Perm Domains) (atoms : List Atom) (w s : Str)
    (hw : w ≠ []) (hlow : ToLower lower w = w) (hwsp : ∀ c ∈ w, isSpace c = false)
    (hkey : ∀ code, (w, code) ∉ patterns)
    (hrev : (LoadVocabulary lower atoms).Reverse w = some s)
    (hs : s ≠ []) (hglyph : ∀ x ∈ s, isGlyph x = false) (hspace : ∀ x ∈ s, isSpace x = false)
    (hop : ∀ c r, s = c :: r → c ≠ '!' ∧ c ≠ '?' ∧ c ≠ '~') :
    (Encoder.mk (LoadVocabulary lower atoms)).Encode lower w = s ∧
    ∃ atom, (LoadVocabulary lower atoms).Atoms s = some atom ∧
      (Decoder.mk (LoadVocabulary lower atoms)).Decode order
        ((Encoder.mk (LoadVocabulary lower atoms)).Encode lower w) = TrimSpace atom.Meaning := by
  have hnorm : ToLower lower (TrimSpace w) = w := by
    rw [TrimSpace_of_no_space w hwsp, hlow]
  have henc : (Encoder.mk (LoadVocabulary lower atoms)).Encode lower w = s := by
    have hlook := lookup_eq_none_of_not_mem patterns hkey
    have hjoin : Join [s] ".".toList = s := by simp [Join, List.intercalate]
    simp only [Encoder.Encode, if_neg hw, hnorm, hlook, Encoder.buildFromComponents,
      Fields_single w hw hwsp, List.filterMap_cons, hrev, List.filterMap_nil,
      List.length_singleton, gt_iff_lt, Nat.lt_one_iff, if_true, hjoin]
    simp [hs]
  obtain ⟨atom, hatom⟩ := LoadVocabulary_reverse_atoms lower atoms w s hrev
  refine ⟨henc, atom, hatom, ?_⟩
  rw [henc, Decode_plain_token order horder _ s hs hglyph hspace hop]
  simp only [Decoder.decodeToken, hatom]

/-- C18 on the vocabulary loaded from `duplicateAtoms`: the word `awareness`, an alias of
the first atom `co`, encodes to `co`, and `co` decodes to the meaning of the last atom with
that symbol, `consciousness`. -/
theorem word_roundtrip_witness :
    (Encoder.mk (LoadVocabulary asciiToLower duplicateAtoms)).Encode asciiToLower
      "awareness".toList = "co".toList ∧
    (Decoder.mk (LoadVocabulary asciiToLower duplicateAtoms)).Decode Domains
      ((Encoder.mk (LoadVocabulary asciiToLower duplicateAtoms)).Encode asciiToLower
        "awareness".toList) = "consciousness".toList := by
  have h := word_roundtrip asciiToLower Domains (List.Perm.refl _) duplicateAtoms
    "awareness".toList "co".toList (by decide) (by decide) (by decide)
    (by
      intro code hmem
      have hsome := lookup_patterns_of_mem hmem
      have hnone : patterns.lookup "awareness".toList = none := by decide
      rw [hnone] at hsome
      cases hsome)
    (by decide) (by decide) (by decide) (by decide)
    (by intro c r h; cases h; decide)
  obtain ⟨h1, atom, hatom, h2⟩ := h
  refine ⟨h1, ?_⟩
  have hat : (LoadVocabulary asciiToLower duplicateAtoms).Atoms "co".toList
      = some ⟨"co".toList, "consciousness".toList, [], ["mind".toList], []⟩ := rfl
  rw [hat] at hatom
  cases hatom
  exact h2

end Lambda
